import Mathlib

/-!
# IRR estimation in `assets/js/portfolio.js`

A shallow embedding of `calculateIRR` and `bisectionIRR`, and the properties that the
specification of the IRR solver states about them.

## Modelling choices

* JavaScript numbers are modelled by an ordered field `α`, so arithmetic is exact: there is no
  rounding, no overflow and no `NaN`.  The statements that need analysis are taken at `α = ℝ`.
* `Math.pow` is a parameter `pow : α → α → α` of every definition that calls it.  At `α = ℝ` it
  is instantiated by `Real.rpow`, which agrees with `Math.pow` whenever the base is positive;
  the base `1 + rate` is positive throughout when the initial guess is above `-1` (C10 below).
* A `Date` is its time value, an integer number of milliseconds; `a.date - b.date` is the
  difference of the time values.
* `null` is `none`.  The argument test `!cashFlows` is modelled by an optional list.
* Each `for` loop is a recursion on the number of iterations that remain; its body is a function
  of its own (`newtonStep`, `bisectionStep`) that tells which branch is taken.
* `newtonVisits`, `bisectionVisits` and `calculateIRRVisits` list the states in which the loop
  bodies run.  They recurse exactly as the loops do, on the same bodies.
-/

namespace Portfolio

/-- An element of the `cashFlows` array: `{date: Date, amount: number}`. -/
structure CashFlow (α : Type) where
  date : Int
  amount : α
deriving DecidableEq, Repr

/-- An element of the `flows` array built by `calculateIRR`: `{years, amount}`. -/
structure Flow (α : Type) where
  years : α
  amount : α
deriving DecidableEq, Repr

section Embedding

variable {α : Type} [LinearOrderedField α]

/-- The comparator `(a, b) => a.date - b.date` puts `a` no later than `b` when
`a.date ≤ b.date`. -/
def byDate (a b : CashFlow α) : Prop := a.date ≤ b.date

instance byDateDecidable : DecidableRel (byDate : CashFlow α → CashFlow α → Prop) :=
  fun a b => inferInstanceAs (Decidable (a.date ≤ b.date))

instance byDate_isTotal : IsTotal (CashFlow α) byDate :=
  ⟨fun a b => Int.le_total a.date b.date⟩

instance byDate_isTrans : IsTrans (CashFlow α) byDate :=
  ⟨fun _ _ _ hab hbc => Int.le_trans hab hbc⟩

/-- The sorted copy `[...cashFlows].sort((a, b) => a.date - b.date)`: `Array.prototype.sort` is
stable, and so is insertion with `≤` from the right end. -/
def sortByDate (cashFlows : List (CashFlow α)) : List (CashFlow α) :=
  cashFlows.insertionSort byDate

/-- The divisor `365.25 * 24 * 60 * 60 * 1000`: milliseconds in a Julian year. -/
def msPerYear : α := 365.25 * 24 * 60 * 60 * 1000

/-- The map `sorted.map(cf => ({years: (cf.date - firstDate) / msPerYear, amount: cf.amount}))`. -/
def toFlows (firstDate : Int) (sorted : List (CashFlow α)) : List (Flow α) :=
  sorted.map fun cf =>
    { years := ((cf.date - firstDate : Int) : α) / msPerYear, amount := cf.amount }

/-- The inner `for (const flow of flows)` loop of the Newton-Raphson iteration: the pair
`(npv, derivative)` accumulated from `(0, 0)`. -/
def newtonSums (pow : α → α → α) (flows : List (Flow α)) (rate : α) : α × α :=
  flows.foldl
    (fun acc flow =>
      let discountFactor := pow (1 + rate) (-flow.years)
      (acc.1 + flow.amount * discountFactor,
        acc.2 - flow.years * flow.amount * pow (1 + rate) (-flow.years - 1)))
    (0, 0)

/-- The two statements `if (rate < -0.99) rate = -0.99; if (rate > 10) rate = 10;`. -/
def boundRate (rate : α) : α :=
  let rate := if rate < -0.99 then -0.99 else rate
  if rate > 10 then 10 else rate

/-- What one pass through the body of the Newton-Raphson loop does. -/
inductive NewtonOutcome (α : Type) where
  /-- The `rate += 0.01; continue;` branch, with the new rate. -/
  | perturbed (rate : α)
  /-- The `return newRate;` branch. -/
  | converged (newRate : α)
  /-- The end of the body is reached, with the bounded rate. -/
  | stepped (rate : α)
deriving DecidableEq, Repr

/-- The body of the Newton-Raphson loop at the current `rate`. -/
def newtonStep (pow : α → α → α) (flows : List (Flow α)) (rate : α) : NewtonOutcome α :=
  let sums := newtonSums pow flows rate
  let npv := sums.1
  let derivative := sums.2
  if |derivative| < 1e-10 then
    .perturbed (rate + 0.01)
  else
    let newRate := rate - npv / derivative
    if |newRate - rate| < 1e-7 then
      .converged newRate
    else
      .stepped (boundRate newRate)

/-- The inner function `npv(rate)` of `bisectionIRR`: a `reduce` from `0`. -/
def npv (pow : α → α → α) (flows : List (Flow α)) (rate : α) : α :=
  flows.foldl (fun sum flow => sum + flow.amount * pow (1 + rate) (-flow.years)) 0

/-- What one pass through the body of the bisection loop does. -/
inductive BisectionOutcome (α : Type) where
  /-- The `return mid;` branch. -/
  | found (mid : α)
  /-- One of the assignments `high = mid` or `low = mid`, with the new `low` and `high`. -/
  | narrowed (low high : α)
deriving DecidableEq, Repr

/-- The body of the bisection loop at the current `low` and `high`. -/
def bisectionStep (pow : α → α → α) (flows : List (Flow α)) (low high : α) :
    BisectionOutcome α :=
  let mid := (low + high) / 2
  let npvMid := npv pow flows mid
  if |npvMid| < 1e-6 ∨ (high - low) / 2 < 1e-6 then
    .found mid
  else if npv pow flows low * npvMid < 0 then
    .narrowed low mid
  else
    .narrowed mid high

/-- The bisection loop with `n` iterations left; `return null` when none is left. -/
def bisectionLoop (pow : α → α → α) (flows : List (Flow α)) : Nat → α → α → Option α
  | 0, _, _ => none
  | n + 1, low, high =>
    match bisectionStep pow flows low high with
    | .found mid => some mid
    | .narrowed low high => bisectionLoop pow flows n low high

/-- The function `bisectionIRR(flows)`: `low = -0.99`, `high = 10`, `maxIterations = 100`. -/
def bisectionIRR (pow : α → α → α) (flows : List (Flow α)) : Option α :=
  bisectionLoop pow flows 100 (-0.99) 10

/-- The Newton-Raphson loop with `n` iterations left; when none is left the function ends with
`return bisectionIRR(flows)`. -/
def newtonLoop (pow : α → α → α) (flows : List (Flow α)) : Nat → α → Option α
  | 0, _ => bisectionIRR pow flows
  | n + 1, rate =>
    match newtonStep pow flows rate with
    | .perturbed rate => newtonLoop pow flows n rate
    | .converged newRate => some newRate
    | .stepped rate => newtonLoop pow flows n rate

/-- The default value `0.1` of the parameter `guess`. -/
def defaultGuess : α := 0.1

/-- The function `calculateIRR(cashFlows, guess)`. -/
def calculateIRR (pow : α → α → α) (cashFlows : Option (List (CashFlow α))) (guess : α) :
    Option α :=
  match cashFlows with
  | none => none
  | some cashFlows =>
    if cashFlows.length < 2 then none
    else
      match sortByDate cashFlows with
      | [] => none
      | first :: rest =>
        let firstDate := first.date
        let flows := toFlows firstDate (first :: rest)
        newtonLoop pow flows 100 guess

/-- The array `flows` that `calculateIRR` builds from `cashFlows`: the flows sorted by date, each
dated in years from the first. -/
def timeAdjusted (cashFlows : List (CashFlow α)) : List (Flow α) :=
  match sortByDate cashFlows with
  | [] => []
  | first :: rest => toFlows first.date (first :: rest)

/-! ### Instrumentation: what the loops visit -/

/-- The rates at which the Newton-Raphson loop runs its body, first to last, each with a flag
telling whether a Newton step (`rate = newRate`) has been taken before. -/
def newtonVisits (pow : α → α → α) (flows : List (Flow α)) : Nat → α → Bool → List (α × Bool)
  | 0, _, _ => []
  | n + 1, rate, taken =>
    (rate, taken) ::
      match newtonStep pow flows rate with
      | .perturbed rate => newtonVisits pow flows n rate taken
      | .converged _ => []
      | .stepped rate => newtonVisits pow flows n rate true

/-- The pairs `(low, high)` at which the bisection loop runs its body, first to last. -/
def bisectionVisits (pow : α → α → α) (flows : List (Flow α)) : Nat → α → α → List (α × α)
  | 0, _, _ => []
  | n + 1, low, high =>
    (low, high) ::
      match bisectionStep pow flows low high with
      | .found _ => []
      | .narrowed low high => bisectionVisits pow flows n low high

/-- Whether the Newton-Raphson loop with `n` iterations left ends in `bisectionIRR`. -/
def newtonFallsBack (pow : α → α → α) (flows : List (Flow α)) : Nat → α → Bool
  | 0, _ => true
  | n + 1, rate =>
    match newtonStep pow flows rate with
    | .perturbed rate => newtonFallsBack pow flows n rate
    | .converged _ => false
    | .stepped rate => newtonFallsBack pow flows n rate

/-- The visits of a call `calculateIRR(cashFlows, guess)`: those of its Newton-Raphson loop and,
when that loop ends in `bisectionIRR`, those of the bisection loop. -/
def calculateIRRVisits (pow : α → α → α) (cashFlows : Option (List (CashFlow α))) (guess : α) :
    List (α × Bool) × List (α × α) :=
  match cashFlows with
  | none => ([], [])
  | some cashFlows =>
    if cashFlows.length < 2 then ([], [])
    else
      match sortByDate cashFlows with
      | [] => ([], [])
      | first :: rest =>
        let firstDate := first.date
        let flows := toFlows firstDate (first :: rest)
        (newtonVisits pow flows 100 guess false,
          if newtonFallsBack pow flows 100 guess then bisectionVisits pow flows 100 (-0.99) 10
          else [])

end Embedding

/-! ## Properties -/

section Properties

set_option linter.unusedSectionVars false

variable {α : Type} [LinearOrderedField α]

/-! ### The sums of the two loops -/

/-- The inner Newton-Raphson loop from any starting pair of accumulators. -/
theorem newtonSums_aux (pow : α → α → α) (flows : List (Flow α)) (rate : α) (a b : α) :
    flows.foldl
      (fun acc flow =>
        let discountFactor := pow (1 + rate) (-flow.years)
        (acc.1 + flow.amount * discountFactor,
          acc.2 - flow.years * flow.amount * pow (1 + rate) (-flow.years - 1)))
      (a, b) =
    (a + (flows.map fun f => f.amount * pow (1 + rate) (-f.years)).sum,
      b - (flows.map fun f => f.years * f.amount * pow (1 + rate) (-f.years - 1)).sum) := by
  induction flows generalizing a b with
  | nil => simp
  | cons f fs ih =>
    simp only [List.foldl_cons, List.map_cons, List.sum_cons, ih]
    refine Prod.ext ?_ ?_ <;> simp <;> ring

/-- The inner Newton-Raphson loop computes the NPV sum and the negated derivative sum. -/
theorem newtonSums_eq (pow : α → α → α) (flows : List (Flow α)) (rate : α) :
    newtonSums pow flows rate =
      ((flows.map fun f => f.amount * pow (1 + rate) (-f.years)).sum,
        -(flows.map fun f => f.years * f.amount * pow (1 + rate) (-f.years - 1)).sum) := by
  unfold newtonSums
  rw [newtonSums_aux]
  simp

/-- The `reduce` of `npv` is the sum of the discounted amounts. -/
theorem npv_eq_sum (pow : α → α → α) (flows : List (Flow α)) (rate : α) :
    npv pow flows rate = (flows.map fun f => f.amount * pow (1 + rate) (-f.years)).sum := by
  unfold npv
  rw [List.sum_eq_foldl, List.foldl_map]

/-- The `npv` accumulated by the Newton-Raphson loop is the `npv(rate)` of `bisectionIRR`. -/
theorem newtonSums_fst (pow : α → α → α) (flows : List (Flow α)) (rate : α) :
    (newtonSums pow flows rate).1 = npv pow flows rate := by
  rw [newtonSums_eq, npv_eq_sum]

/-! ### The loop bodies -/

/-- The `rate += 0.01` branch is taken when the derivative is below `1e-10` in absolute value. -/
theorem newtonStep_eq_perturbed (pow : α → α → α) (flows : List (Flow α)) (rate : α)
    (hd : |(newtonSums pow flows rate).2| < 1e-10) :
    newtonStep pow flows rate = .perturbed (rate + 0.01) := by
  simp only [newtonStep, hd, if_true]

/-- The `return newRate` branch is taken when the derivative is not below `1e-10` in absolute
value and the Newton step is shorter than `1e-7`. -/
theorem newtonStep_eq_converged (pow : α → α → α) (flows : List (Flow α)) (rate : α)
    (hd : 1e-10 ≤ |(newtonSums pow flows rate).2|)
    (hc : |rate - (newtonSums pow flows rate).1 / (newtonSums pow flows rate).2 - rate| < 1e-7) :
    newtonStep pow flows rate =
      .converged (rate - (newtonSums pow flows rate).1 / (newtonSums pow flows rate).2) := by
  simp only [newtonStep, not_lt.mpr hd, hc, if_true, if_false]

/-- The end of the loop body is reached when the derivative is not below `1e-10` in absolute
value and the Newton step is not shorter than `1e-7`. -/
theorem newtonStep_eq_stepped (pow : α → α → α) (flows : List (Flow α)) (rate : α)
    (hd : 1e-10 ≤ |(newtonSums pow flows rate).2|)
    (hc : 1e-7 ≤ |rate - (newtonSums pow flows rate).1 / (newtonSums pow flows rate).2 - rate|) :
    newtonStep pow flows rate =
      .stepped
        (boundRate (rate - (newtonSums pow flows rate).1 / (newtonSums pow flows rate).2)) := by
  simp only [newtonStep, not_lt.mpr hd, not_lt.mpr hc, if_false]

/-- The body of the Newton-Raphson loop takes one of its three branches. -/
theorem newtonStep_cases (pow : α → α → α) (flows : List (Flow α)) (rate : α) :
    (|(newtonSums pow flows rate).2| < 1e-10 ∧
        newtonStep pow flows rate = .perturbed (rate + 0.01)) ∨
      (1e-10 ≤ |(newtonSums pow flows rate).2| ∧
        |rate - (newtonSums pow flows rate).1 / (newtonSums pow flows rate).2 - rate| < 1e-7 ∧
        newtonStep pow flows rate =
          .converged (rate - (newtonSums pow flows rate).1 / (newtonSums pow flows rate).2)) ∨
      (1e-10 ≤ |(newtonSums pow flows rate).2| ∧
        1e-7 ≤ |rate - (newtonSums pow flows rate).1 / (newtonSums pow flows rate).2 - rate| ∧
        newtonStep pow flows rate =
          .stepped
            (boundRate
              (rate - (newtonSums pow flows rate).1 / (newtonSums pow flows rate).2))) := by
  rcases lt_or_le |(newtonSums pow flows rate).2| 1e-10 with hd | hd
  · exact Or.inl ⟨hd, newtonStep_eq_perturbed pow flows rate hd⟩
  · rcases lt_or_le
      |rate - (newtonSums pow flows rate).1 / (newtonSums pow flows rate).2 - rate| 1e-7
      with hc | hc
    · exact Or.inr (Or.inl ⟨hd, hc, newtonStep_eq_converged pow flows rate hd hc⟩)
    · exact Or.inr (Or.inr ⟨hd, hc, newtonStep_eq_stepped pow flows rate hd hc⟩)

/-- What the `return newRate` branch tells about the rate it is taken at. -/
theorem newtonStep_converged (pow : α → α → α) (flows : List (Flow α)) (rate r : α)
    (h : newtonStep pow flows rate = .converged r) :
    1e-10 ≤ |(newtonSums pow flows rate).2| ∧
      r = rate - npv pow flows rate / (newtonSums pow flows rate).2 ∧
      |r - rate| < 1e-7 ∧
      |npv pow flows rate| < 1e-7 * |(newtonSums pow flows rate).2| := by
  rcases newtonStep_cases pow flows rate with hc | hc | hc
  · rw [hc.2] at h
    cases h
  · rw [hc.2.2] at h
    simp only [NewtonOutcome.converged.injEq] at h
    have hd : 0 < |(newtonSums pow flows rate).2| :=
      lt_of_lt_of_le (by norm_num) hc.1
    refine ⟨hc.1, ?_, ?_, ?_⟩
    · rw [← h, newtonSums_fst]
    · rw [← h]
      exact hc.2.1
    · have h2 := hc.2.1
      rw [sub_sub_cancel_left, abs_neg, abs_div, div_lt_iff₀ hd, newtonSums_fst] at h2
      exact h2
  · rw [hc.2.2] at h
    cases h

/-- The bounded rate lies between `-0.99` and `10`. -/
theorem boundRate_mem (rate : α) : -0.99 ≤ boundRate rate ∧ boundRate rate ≤ 10 := by
  unfold boundRate
  dsimp only
  split_ifs with h1 h2 h2
  · norm_num at h2
  · norm_num
  · exact ⟨by norm_num, le_rfl⟩
  · exact ⟨not_lt.mp h1, not_lt.mp h2⟩

/-- The outcomes of the bisection body, by cases. -/
theorem bisectionStep_cases (pow : α → α → α) (flows : List (Flow α)) (low high : α) :
    (bisectionStep pow flows low high = .found ((low + high) / 2) ∧
        (|npv pow flows ((low + high) / 2)| < 1e-6 ∨ (high - low) / 2 < 1e-6)) ∨
      (bisectionStep pow flows low high = .narrowed low ((low + high) / 2) ∧
        1e-6 ≤ |npv pow flows ((low + high) / 2)| ∧ 1e-6 ≤ (high - low) / 2 ∧
        npv pow flows low * npv pow flows ((low + high) / 2) < 0) ∨
      (bisectionStep pow flows low high = .narrowed ((low + high) / 2) high ∧
        1e-6 ≤ |npv pow flows ((low + high) / 2)| ∧ 1e-6 ≤ (high - low) / 2 ∧
        0 ≤ npv pow flows low * npv pow flows ((low + high) / 2)) := by
  unfold bisectionStep
  by_cases h1 : |npv pow flows ((low + high) / 2)| < 1e-6 ∨ (high - low) / 2 < 1e-6
  · left
    simp only [h1, if_true, and_self]
  · right
    have h1' := h1
    rw [not_or, not_lt, not_lt] at h1'
    by_cases h2 : npv pow flows low * npv pow flows ((low + high) / 2) < 0
    · left
      simp only [h1, h2, if_true, if_false, true_and]
      exact ⟨h1'.1, h1'.2, trivial⟩
    · right
      simp only [h1, h2, if_false, true_and]
      exact ⟨h1'.1, h1'.2, not_lt.mp h2⟩

/-! ### The bisection loop -/

/-- The bisection loop returns a number once the interval is short enough for the iterations
that are left. -/
theorem bisectionLoop_isSome (pow : α → α → α) (flows : List (Flow α)) (n : Nat) :
    ∀ low high : α, (high - low) / 2 < 1e-6 * 2 ^ n →
      ∃ mid, bisectionLoop pow flows (n + 1) low high = some mid := by
  induction n with
  | zero =>
    intro low high h
    rw [pow_zero, mul_one] at h
    rcases bisectionStep_cases pow flows low high with h1 | h1 | h1
    · exact ⟨_, by rw [bisectionLoop, h1.1]⟩
    · exact absurd h (not_lt.mpr h1.2.2.1)
    · exact absurd h (not_lt.mpr h1.2.2.1)
  | succ n ih =>
    intro low high h
    rcases bisectionStep_cases pow flows low high with h1 | h1 | h1
    · exact ⟨_, by rw [bisectionLoop, h1.1]⟩
    · obtain ⟨mid, hmid⟩ := ih low ((low + high) / 2) (by
        rw [pow_succ] at h
        have : ((low + high) / 2 - low) / 2 = (high - low) / 2 / 2 := by ring
        rw [this, div_lt_iff₀ (by norm_num)]
        linarith)
      exact ⟨mid, by rw [bisectionLoop, h1.1]; exact hmid⟩
    · obtain ⟨mid, hmid⟩ := ih ((low + high) / 2) high (by
        rw [pow_succ] at h
        have : (high - (low + high) / 2) / 2 = (high - low) / 2 / 2 := by ring
        rw [this, div_lt_iff₀ (by norm_num)]
        linarith)
      exact ⟨mid, by rw [bisectionLoop, h1.1]; exact hmid⟩

/-- The function `bisectionIRR` returns a number on every list of flows. -/
theorem bisectionIRR_isSome (pow : α → α → α) (flows : List (Flow α)) :
    ∃ mid, bisectionIRR pow flows = some mid := by
  unfold bisectionIRR
  exact bisectionLoop_isSome pow flows 99 (-0.99) 10 (by norm_num)

/-- A number returned by the bisection loop lies in the interval it started from. -/
theorem bisectionLoop_mem (pow : α → α → α) (flows : List (Flow α)) (n : Nat) :
    ∀ low high mid : α, low ≤ high → bisectionLoop pow flows n low high = some mid →
      low ≤ mid ∧ mid ≤ high := by
  induction n with
  | zero => intro low high mid _ h; simp [bisectionLoop] at h
  | succ n ih =>
    intro low high mid hle h
    rw [bisectionLoop] at h
    rcases bisectionStep_cases pow flows low high with h1 | h1 | h1
    · rw [h1.1] at h
      simp only [Option.some.injEq] at h
      subst h
      constructor <;> linarith
    · rw [h1.1] at h
      have := ih _ _ _ (by linarith) h
      constructor <;> linarith [this.1, this.2]
    · rw [h1.1] at h
      have := ih _ _ _ (by linarith) h
      constructor <;> linarith [this.1, this.2]

/-- A number returned by `bisectionIRR` lies between `-0.99` and `10`. -/
theorem bisectionIRR_mem (pow : α → α → α) (flows : List (Flow α)) (mid : α)
    (h : bisectionIRR pow flows = some mid) : -0.99 ≤ mid ∧ mid ≤ 10 :=
  bisectionLoop_mem pow flows 100 (-0.99) 10 mid (by norm_num) h

/-- The pairs visited by the bisection loop stay inside the interval it started from. -/
theorem bisectionVisits_mem (pow : α → α → α) (flows : List (Flow α)) (lo hi : α) (n : Nat) :
    ∀ low high : α, lo ≤ low → low ≤ high → high ≤ hi →
      ∀ b ∈ bisectionVisits pow flows n low high, lo ≤ b.1 ∧ b.1 ≤ b.2 ∧ b.2 ≤ hi := by
  induction n with
  | zero => intro low high _ _ _ b hb; simp [bisectionVisits] at hb
  | succ n ih =>
    intro low high h1 h2 h3 b hb
    rw [bisectionVisits] at hb
    rcases List.mem_cons.mp hb with rfl | hb
    · exact ⟨h1, h2, h3⟩
    · rcases bisectionStep_cases pow flows low high with hc | hc | hc
      · rw [hc.1] at hb
        simp at hb
      · rw [hc.1] at hb
        exact ih _ _ h1 (by linarith) (by linarith) b hb
      · rw [hc.1] at hb
        exact ih _ _ (by linarith) (by linarith) h3 b hb

/-- Where the NPV is at least `1e-6` from `low` on, the bisection loop moves `low` up to the
midpoint until the half-width is below `1e-6`, and returns the last midpoint. -/
theorem bisectionLoop_of_positive (pow : α → α → α) (flows : List (Flow α)) (low₀ high : α)
    (hpos : ∀ rate, low₀ ≤ rate → 1e-6 ≤ npv pow flows rate) (m : Nat) :
    ∀ (n : Nat) (low : α), low₀ ≤ low → low ≤ high → m < n →
      1e-6 ≤ (high - low) / 2 ^ m → (high - low) / 2 ^ (m + 1) < 1e-6 →
      bisectionLoop pow flows n low high = some (high - (high - low) / 2 ^ (m + 1)) := by
  induction m with
  | zero =>
    intro n low _ hle hn _ hw
    obtain ⟨k, rfl⟩ : ∃ k, n = k + 1 := ⟨n - 1, by omega⟩
    rw [zero_add, pow_one] at hw
    rcases bisectionStep_cases pow flows low high with h1 | h1 | h1
    · simp only [bisectionLoop, h1.1, zero_add, pow_one, Option.some.injEq]
      ring
    · exact absurd hw (not_lt.mpr h1.2.2.1)
    · exact absurd hw (not_lt.mpr h1.2.2.1)
  | succ m ih =>
    intro n low hlow hle hn hw1 hw2
    obtain ⟨k, rfl⟩ : ∃ k, n = k + 1 := ⟨n - 1, by omega⟩
    have hmid : low₀ ≤ (low + high) / 2 := by linarith
    have hP : (0 : α) < 2 ^ m := by positivity
    have hhalf : (1e-6 : α) ≤ (high - low) / 2 := by
      refine le_trans hw1 ?_
      rw [pow_succ, div_le_div_iff₀ (by positivity) (by norm_num)]
      have : (1 : α) ≤ 2 ^ m := one_le_pow₀ (by norm_num)
      nlinarith
    have e1 : (high - (low + high) / 2) / 2 ^ m = (high - low) / 2 ^ (m + 1) := by
      rw [pow_succ]; field_simp; ring
    have e2 : (high - (low + high) / 2) / 2 ^ (m + 1) = (high - low) / 2 ^ (m + 1 + 1) := by
      rw [pow_succ 2 (m + 1)]; field_simp; ring
    have hnext := ih k ((low + high) / 2) hmid (by linarith) (by omega)
      (by rw [e1]; exact hw1) (by rw [e2]; exact hw2)
    rw [e2] at hnext
    rcases bisectionStep_cases pow flows low high with h1 | h1 | h1
    · rcases h1.2 with h | h
      · have := hpos _ hmid
        rw [abs_of_pos (by linarith)] at h
        exact absurd h (not_lt.mpr this)
      · exact absurd h (not_lt.mpr hhalf)
    · have a := hpos _ hlow
      have b := hpos _ hmid
      have c : (0 : α) < 1e-6 := by norm_num
      nlinarith [h1.2.2.2]
    · rw [bisectionLoop, h1.1]
      exact hnext

/-- The pair that the bisection loop visits at iteration index `i` is `(high - low) / 2 ^ i`
wide: every assignment `high = mid` or `low = mid` halves the interval. -/
theorem bisectionVisits_width (pow : α → α → α) (flows : List (Flow α)) (n : Nat) :
    ∀ (low high : α) (i : Nat) (b : α × α),
      (bisectionVisits pow flows n low high)[i]? = some b →
        b.2 - b.1 = (high - low) / 2 ^ i := by
  induction n with
  | zero => intro low high i b h; simp [bisectionVisits] at h
  | succ n ih =>
    intro low high i b h
    rw [bisectionVisits] at h
    cases i with
    | zero =>
      simp only [List.getElem?_cons_zero, Option.some.injEq] at h
      subst h
      simp
    | succ i =>
      rw [List.getElem?_cons_succ] at h
      rcases bisectionStep_cases pow flows low high with hc | hc | hc
      · rw [hc.1] at h
        simp at h
      · rw [hc.1] at h
        rw [ih _ _ i b h, pow_succ]
        field_simp
        ring
      · rw [hc.1] at h
        rw [ih _ _ i b h, pow_succ]
        field_simp
        ring

/-- The bisection loop runs its body at most `k + 1` times once the half-width is below
`1e-6 * 2 ^ k`. -/
theorem bisectionVisits_length_le (pow : α → α → α) (flows : List (Flow α)) (k : Nat) :
    ∀ (n : Nat) (low high : α), (high - low) / 2 < 1e-6 * 2 ^ k →
      (bisectionVisits pow flows n low high).length ≤ k + 1 := by
  induction k with
  | zero =>
    intro n low high h
    rw [pow_zero, mul_one] at h
    cases n with
    | zero => simp [bisectionVisits]
    | succ n =>
      rw [bisectionVisits]
      rcases bisectionStep_cases pow flows low high with hc | hc | hc
      · rw [hc.1]
        simp
      · exact absurd h (not_lt.mpr hc.2.2.1)
      · exact absurd h (not_lt.mpr hc.2.2.1)
  | succ k ih =>
    intro n low high h
    rw [pow_succ] at h
    cases n with
    | zero => simp [bisectionVisits]
    | succ n =>
      rw [bisectionVisits]
      rcases bisectionStep_cases pow flows low high with hc | hc | hc
      · rw [hc.1]
        simp
      · rw [hc.1, List.length_cons]
        dsimp only
        have := ih n low ((low + high) / 2) (by
          have e : ((low + high) / 2 - low) / 2 = (high - low) / 2 / 2 := by ring
          rw [e, div_lt_iff₀ (by norm_num)]
          linarith)
        omega
      · rw [hc.1, List.length_cons]
        dsimp only
        have := ih n ((low + high) / 2) high (by
          have e : (high - (low + high) / 2) / 2 = (high - low) / 2 / 2 := by ring
          rw [e, div_lt_iff₀ (by norm_num)]
          linarith)
        omega

/-! ### The Newton-Raphson loop -/

/-- The Newton-Raphson loop returns a number, its own or the one of `bisectionIRR`. -/
theorem newtonLoop_isSome (pow : α → α → α) (flows : List (Flow α)) (n : Nat) :
    ∀ rate : α, ∃ r, newtonLoop pow flows n rate = some r := by
  induction n with
  | zero => intro rate; exact bisectionIRR_isSome pow flows
  | succ n ih =>
    intro rate
    rw [newtonLoop]
    cases newtonStep pow flows rate with
    | perturbed r => exact ih r
    | converged r => exact ⟨r, rfl⟩
    | stepped r => exact ih r

/-- A number returned by the Newton-Raphson loop is returned by the `return newRate` branch at a
visited rate, or the loop ends in `bisectionIRR`, which returns it. -/
theorem newtonLoop_result (pow : α → α → α) (flows : List (Flow α)) (r : α) (n : Nat) :
    ∀ (rate : α) (taken : Bool), newtonLoop pow flows n rate = some r →
      (∃ v ∈ newtonVisits pow flows n rate taken, newtonStep pow flows v.1 = .converged r) ∨
        (newtonFallsBack pow flows n rate = true ∧ bisectionIRR pow flows = some r) := by
  induction n with
  | zero =>
    intro rate taken h
    exact Or.inr ⟨rfl, h⟩
  | succ n ih =>
    intro rate taken h
    rw [newtonLoop] at h
    rw [newtonVisits, newtonFallsBack]
    cases hs : newtonStep pow flows rate with
    | perturbed r' =>
      rw [hs] at h
      rcases ih r' taken h with ⟨v, hv, hc⟩ | hb
      · exact Or.inl ⟨v, List.mem_cons_of_mem _ hv, hc⟩
      · exact Or.inr hb
    | converged r' =>
      rw [hs] at h
      simp only [Option.some.injEq] at h
      subst h
      exact Or.inl ⟨(rate, taken), List.mem_cons_self _ _, hs⟩
    | stepped r' =>
      rw [hs] at h
      rcases ih r' true h with ⟨v, hv, hc⟩ | hb
      · exact Or.inl ⟨v, List.mem_cons_of_mem _ hv, hc⟩
      · exact Or.inr hb

/-- A number returned by the Newton-Raphson loop with `n` iterations left: the rate stays above
`lo` and can grow by `0.01` in each iteration that is left. -/
theorem newtonLoop_range (pow : α → α → α) (flows : List (Flow α)) (lo hi r : α)
    (hlo : lo ≤ -0.99) (hhi : 10.01 ≤ hi) (n : Nat) :
    ∀ rate : α, lo ≤ rate → rate + 0.01 * n ≤ hi → 10 + 0.01 * n ≤ hi →
      newtonLoop pow flows n rate = some r → lo - 1e-7 < r ∧ r < hi - 0.01 + 1e-7 := by
  induction n with
  | zero =>
    intro rate _ _ _ h
    have := bisectionIRR_mem pow flows r h
    constructor
    · linarith [this.1, show (0 : α) < 1e-7 by norm_num]
    · linarith [this.2, show (0 : α) < 1e-7 by norm_num]
  | succ n ih =>
    intro rate h1 h2 h3 h
    push_cast at h2 h3
    have hn : (0 : α) ≤ 0.01 * n := by positivity
    rw [newtonLoop] at h
    rcases newtonStep_cases pow flows rate with hc | hc | hc
    · rw [hc.2] at h
      exact ih _ (by linarith [show (0 : α) < 0.01 by norm_num]) (by linarith) (by linarith) h
    · rw [hc.2.2] at h
      simp only [Option.some.injEq] at h
      rw [h] at hc
      have := abs_lt.mp hc.2.1
      constructor <;> linarith [this.1, this.2]
    · rw [hc.2.2] at h
      have hb := boundRate_mem
        (rate - (newtonSums pow flows rate).1 / (newtonSums pow flows rate).2)
      exact ih _ (by linarith [hb.1]) (by linarith [hb.2]) (by linarith) h

/-- The rates visited by the Newton-Raphson loop stay above `-1`, and stay at or above `-0.99`
once a Newton step has been taken. -/
theorem newtonVisits_above (pow : α → α → α) (flows : List (Flow α)) (n : Nat) :
    ∀ (rate : α) (taken : Bool), -1 < rate → (taken = true → -0.99 ≤ rate) →
      ∀ v ∈ newtonVisits pow flows n rate taken, -1 < v.1 ∧ (v.2 = true → -0.99 ≤ v.1) := by
  induction n with
  | zero => intro rate taken _ _ v hv; simp [newtonVisits] at hv
  | succ n ih =>
    intro rate taken h1 h2 v hv
    rw [newtonVisits] at hv
    rcases List.mem_cons.mp hv with rfl | hv
    · exact ⟨h1, h2⟩
    · rcases newtonStep_cases pow flows rate with hc | hc | hc
      · rw [hc.2] at hv
        exact ih _ _ (by linarith [show (0 : α) < 0.01 by norm_num])
          (fun ht => by linarith [h2 ht, show (0 : α) < 0.01 by norm_num]) v hv
      · rw [hc.2.2] at hv
        simp at hv
      · rw [hc.2.2] at hv
        have hb := boundRate_mem
          (rate - (newtonSums pow flows rate).1 / (newtonSums pow flows rate).2)
        exact ih _ _ (by linarith [hb.1, show (-1 : α) < -0.99 by norm_num]) (fun _ => hb.1) v hv

/-- The rates visited by the Newton-Raphson loop from a rate at or above `-0.99` stay at or
above `-0.99`. -/
theorem newtonVisits_ge (pow : α → α → α) (flows : List (Flow α)) (n : Nat) :
    ∀ (rate : α) (taken : Bool), -0.99 ≤ rate →
      ∀ v ∈ newtonVisits pow flows n rate taken, -0.99 ≤ v.1 := by
  induction n with
  | zero => intro rate taken _ v hv; simp [newtonVisits] at hv
  | succ n ih =>
    intro rate taken h1 v hv
    rw [newtonVisits] at hv
    rcases List.mem_cons.mp hv with rfl | hv
    · exact h1
    · rcases newtonStep_cases pow flows rate with hc | hc | hc
      · rw [hc.2] at hv
        exact ih _ _ (by linarith [show (0 : α) < 0.01 by norm_num]) v hv
      · rw [hc.2.2] at hv
        simp at hv
      · rw [hc.2.2] at hv
        exact ih _ _ (boundRate_mem _).1 v hv

/-- The Newton-Raphson loop runs its body at most as often as it has iterations left. -/
theorem newtonVisits_length_le (pow : α → α → α) (flows : List (Flow α)) (n : Nat) :
    ∀ (rate : α) (taken : Bool), (newtonVisits pow flows n rate taken).length ≤ n := by
  induction n with
  | zero => intro rate taken; simp [newtonVisits]
  | succ n ih =>
    intro rate taken
    rw [newtonVisits, List.length_cons]
    cases newtonStep pow flows rate with
    | perturbed r => exact Nat.succ_le_succ (ih r taken)
    | converged r => simp
    | stepped r => exact Nat.succ_le_succ (ih r true)

/-! ### The function `calculateIRR` -/

/-- Past its argument test, `calculateIRR` runs the Newton-Raphson loop on the time-adjusted
flows. -/
theorem calculateIRR_eq_newtonLoop (pow : α → α → α) (cashFlows : List (CashFlow α)) (guess : α)
    (h : 2 ≤ cashFlows.length) :
    calculateIRR pow (some cashFlows) guess =
      newtonLoop pow (timeAdjusted cashFlows) 100 guess := by
  have hlen : (sortByDate cashFlows).length = cashFlows.length :=
    List.length_insertionSort _ _
  unfold calculateIRR timeAdjusted
  dsimp only
  rw [if_neg (by omega)]
  cases hs : sortByDate cashFlows with
  | nil => rw [hs] at hlen; simp at hlen; omega
  | cons first rest => rfl

/-- Past the argument test, the visits of `calculateIRR` are those of the loops on the
time-adjusted flows. -/
theorem calculateIRRVisits_eq (pow : α → α → α) (cashFlows : List (CashFlow α)) (guess : α)
    (h : 2 ≤ cashFlows.length) :
    calculateIRRVisits pow (some cashFlows) guess =
      (newtonVisits pow (timeAdjusted cashFlows) 100 guess false,
        if newtonFallsBack pow (timeAdjusted cashFlows) 100 guess then
          bisectionVisits pow (timeAdjusted cashFlows) 100 (-0.99) 10
        else []) := by
  have hlen : (sortByDate cashFlows).length = cashFlows.length :=
    List.length_insertionSort _ _
  unfold calculateIRRVisits timeAdjusted
  dsimp only
  rw [if_neg (by omega)]
  cases hs : sortByDate cashFlows with
  | nil => rw [hs] at hlen; simp at hlen; omega
  | cons first rest => rfl

/-- With at least 2 flows `calculateIRR` returns a number. -/
theorem calculateIRR_isSome (pow : α → α → α) (cashFlows : List (CashFlow α)) (guess : α)
    (h : 2 ≤ cashFlows.length) : ∃ r, calculateIRR pow (some cashFlows) guess = some r := by
  rw [calculateIRR_eq_newtonLoop pow cashFlows guess h]
  exact newtonLoop_isSome pow _ 100 guess

/-- The function `calculateIRR` returns `null` exactly when the collection is absent or has
fewer than 2 flows. -/
theorem calculateIRR_eq_none_iff (pow : α → α → α) (cashFlows : Option (List (CashFlow α)))
    (guess : α) :
    calculateIRR pow cashFlows guess = none ↔
      cashFlows = none ∨ ∃ l, cashFlows = some l ∧ l.length < 2 := by
  constructor
  · intro h
    cases cashFlows with
    | none => exact Or.inl rfl
    | some l =>
      refine Or.inr ⟨l, rfl, ?_⟩
      by_contra hl
      obtain ⟨r, hr⟩ := calculateIRR_isSome pow l guess (by omega)
      rw [hr] at h
      cases h
  · rintro (rfl | ⟨l, rfl, hl⟩)
    · rfl
    · simp [calculateIRR, hl]

/-- The visits of `calculateIRR`: at most 100 of the Newton-Raphson loop and at most 24 of the
bisection loop. -/
theorem calculateIRRVisits_length_le (pow : α → α → α) (cashFlows : Option (List (CashFlow α)))
    (guess : α) :
    (calculateIRRVisits pow cashFlows guess).1.length ≤ 100 ∧
      (calculateIRRVisits pow cashFlows guess).2.length ≤ 24 := by
  cases cashFlows with
  | none => simp [calculateIRRVisits]
  | some l =>
    by_cases hl : l.length < 2
    · simp [calculateIRRVisits, hl]
    · rw [calculateIRRVisits_eq pow l guess (by omega)]
      refine ⟨newtonVisits_length_le pow _ 100 guess false, ?_⟩
      dsimp only
      split_ifs
      · exact bisectionVisits_length_le pow _ 23 100 (-0.99) 10 (by norm_num)
      · simp

/-! ### Sorting and the order of the flows -/

/-- The sorted copy is a permutation of the array. -/
theorem sortByDate_perm (cashFlows : List (CashFlow α)) :
    (sortByDate cashFlows).Perm cashFlows :=
  List.perm_insertionSort _ _

/-- The sorted copy is in ascending order of date. -/
theorem sortByDate_sorted (cashFlows : List (CashFlow α)) :
    (sortByDate cashFlows).Sorted byDate :=
  List.sorted_insertionSort _ _

/-- The first element of the sorted copy has the earliest date. -/
theorem sortByDate_head_le (cashFlows : List (CashFlow α)) (first : CashFlow α)
    (rest : List (CashFlow α)) (h : sortByDate cashFlows = first :: rest) :
    ∀ cf ∈ cashFlows, first.date ≤ cf.date := by
  intro cf hcf
  have hs := sortByDate_sorted cashFlows
  rw [h] at hs
  have hmem : cf ∈ first :: rest := by
    rw [← h]
    exact (sortByDate_perm cashFlows).mem_iff.mpr hcf
  rcases List.mem_cons.mp hmem with rfl | hr
  · exact le_rfl
  · exact List.rel_of_sorted_cons hs cf hr

/-- Permuting the array permutes the time-adjusted flows. -/
theorem timeAdjusted_perm (l₁ l₂ : List (CashFlow α)) (h : l₁.Perm l₂) :
    (timeAdjusted l₁).Perm (timeAdjusted l₂) := by
  have hp : (sortByDate l₁).Perm (sortByDate l₂) :=
    ((sortByDate_perm l₁).trans h).trans (sortByDate_perm l₂).symm
  unfold timeAdjusted
  cases h1 : sortByDate l₁ with
  | nil =>
    rw [h1] at hp
    rw [List.nil_perm.mp hp]
  | cons f1 r1 =>
    cases h2 : sortByDate l₂ with
    | nil =>
      rw [h1, h2] at hp
      exact absurd (List.perm_nil.mp hp) (List.cons_ne_nil _ _)
    | cons f2 r2 =>
      have m1 : f1 ∈ l₂ := h.mem_iff.mp ((sortByDate_perm l₁).mem_iff.mp (by rw [h1]; simp))
      have m2 : f2 ∈ l₁ := h.mem_iff.mpr ((sortByDate_perm l₂).mem_iff.mp (by rw [h2]; simp))
      have hd : f1.date = f2.date :=
        le_antisymm (sortByDate_head_le l₁ f1 r1 h1 f2 m2) (sortByDate_head_le l₂ f2 r2 h2 f1 m1)
      rw [h1, h2] at hp
      dsimp only
      rw [hd]
      exact hp.map _

/-- The NPV does not depend on the order of the flows. -/
theorem npv_perm (pow : α → α → α) (f₁ f₂ : List (Flow α)) (h : f₁.Perm f₂) (rate : α) :
    npv pow f₁ rate = npv pow f₂ rate := by
  rw [npv_eq_sum, npv_eq_sum]
  exact (h.map _).sum_eq

/-- The sums of the Newton-Raphson loop do not depend on the order of the flows. -/
theorem newtonSums_perm (pow : α → α → α) (f₁ f₂ : List (Flow α)) (h : f₁.Perm f₂) (rate : α) :
    newtonSums pow f₁ rate = newtonSums pow f₂ rate := by
  rw [newtonSums_eq, newtonSums_eq, (h.map _).sum_eq, (h.map _).sum_eq]

/-- The body of the Newton-Raphson loop does not depend on the order of the flows. -/
theorem newtonStep_perm (pow : α → α → α) (f₁ f₂ : List (Flow α)) (h : f₁.Perm f₂) (rate : α) :
    newtonStep pow f₁ rate = newtonStep pow f₂ rate := by
  unfold newtonStep
  rw [newtonSums_perm pow f₁ f₂ h rate]

/-- The body of the bisection loop does not depend on the order of the flows. -/
theorem bisectionStep_perm (pow : α → α → α) (f₁ f₂ : List (Flow α)) (h : f₁.Perm f₂)
    (low high : α) : bisectionStep pow f₁ low high = bisectionStep pow f₂ low high := by
  have hfun : npv pow f₁ = npv pow f₂ := funext (npv_perm pow f₁ f₂ h)
  unfold bisectionStep
  rw [hfun]

/-- The bisection loop does not depend on the order of the flows. -/
theorem bisectionLoop_perm (pow : α → α → α) (f₁ f₂ : List (Flow α)) (h : f₁.Perm f₂)
    (n : Nat) :
    ∀ low high : α, bisectionLoop pow f₁ n low high = bisectionLoop pow f₂ n low high := by
  induction n with
  | zero => intro low high; rfl
  | succ n ih =>
    intro low high
    rw [bisectionLoop, bisectionLoop, bisectionStep_perm pow f₁ f₂ h]
    cases bisectionStep pow f₂ low high with
    | found mid => rfl
    | narrowed l h => exact ih l h

/-- The Newton-Raphson loop does not depend on the order of the flows. -/
theorem newtonLoop_perm (pow : α → α → α) (f₁ f₂ : List (Flow α)) (h : f₁.Perm f₂) (n : Nat) :
    ∀ rate : α, newtonLoop pow f₁ n rate = newtonLoop pow f₂ n rate := by
  induction n with
  | zero =>
    intro rate
    exact bisectionLoop_perm pow f₁ f₂ h 100 _ _
  | succ n ih =>
    intro rate
    rw [newtonLoop, newtonLoop, newtonStep_perm pow f₁ f₂ h]
    cases newtonStep pow f₂ rate with
    | perturbed r => exact ih r
    | converged r => rfl
    | stepped r => exact ih r

/-- Flows that all share one timestamp are all dated `0` years from the first. -/
theorem timeAdjusted_years_of_same_date (t : Int) (amounts : List α) :
    ∀ f ∈ timeAdjusted (amounts.map fun a => (⟨t, a⟩ : CashFlow α)), f.years = 0 := by
  intro f hf
  unfold timeAdjusted at hf
  cases hs : sortByDate (amounts.map fun a => (⟨t, a⟩ : CashFlow α)) with
  | nil => rw [hs] at hf; simp at hf
  | cons first rest =>
    rw [hs] at hf
    have hdate : ∀ cf ∈ first :: rest, cf.date = t := by
      intro cf hcf
      rw [← hs] at hcf
      have := (sortByDate_perm _).mem_iff.mp hcf
      obtain ⟨a, _, rfl⟩ := List.mem_map.mp this
      rfl
    obtain ⟨cf, hcf, rfl⟩ := List.mem_map.mp hf
    rw [hdate cf hcf, hdate first (List.mem_cons_self _ _)]
    simp

/-- The derivative accumulated by the Newton-Raphson loop is `0` when every flow is dated `0`
years. -/
theorem newtonSums_snd_of_years_zero (pow : α → α → α) (flows : List (Flow α)) (rate : α)
    (h : ∀ f ∈ flows, f.years = 0) : (newtonSums pow flows rate).2 = 0 := by
  rw [newtonSums_eq]
  dsimp only
  rw [neg_eq_zero]
  apply List.sum_eq_zero
  intro x hx
  obtain ⟨f, hf, rfl⟩ := List.mem_map.mp hx
  rw [h f hf, zero_mul, zero_mul]

/-! ### Real powers, continuity and bracketed roots -/

/-- A positive real to the power minus a natural number. -/
theorem rpow_neg_nat (b : ℝ) (hb : 0 < b) (k : ℕ) : b ^ (-(k : ℝ)) = (b ^ k)⁻¹ := by
  rw [Real.rpow_neg hb.le, Real.rpow_natCast]

/-- An upper bound for a real power with base at least 1, from a comparison of natural powers
at a rational exponent `p / q` above the real one. -/
theorem rpow_le_of_pow_le (b U y : ℝ) (p q : ℕ) (hb : 1 ≤ b) (hU : 0 ≤ U) (hq : q ≠ 0)
    (hy : y ≤ (p : ℝ) / q) (h : b ^ p ≤ U ^ q) : b ^ y ≤ U := by
  have hb0 : (0 : ℝ) ≤ b := by linarith
  have hq' : (q : ℝ) ≠ 0 := Nat.cast_ne_zero.mpr hq
  have h1 : b ^ y ≤ b ^ ((p : ℝ) / q) := Real.rpow_le_rpow_of_exponent_le hb hy
  have h2 : (b ^ ((p : ℝ) / q)) ^ q = b ^ p := by
    rw [← Real.rpow_natCast, ← Real.rpow_mul hb0, div_mul_cancel₀ _ hq', Real.rpow_natCast]
  have h3 : b ^ ((p : ℝ) / q) ≤ U :=
    le_of_pow_le_pow_left₀ hq hU (by rw [h2]; exact h)
  exact le_trans h1 h3

/-- A lower bound for a real power with base at least 1, from a comparison of natural powers
at a rational exponent `p / q` below the real one. -/
theorem le_rpow_of_pow_le (b L y : ℝ) (p q : ℕ) (hb : 1 ≤ b) (hq : q ≠ 0)
    (hy : (p : ℝ) / q ≤ y) (h : L ^ q ≤ b ^ p) : L ≤ b ^ y := by
  have hb0 : (0 : ℝ) ≤ b := by linarith
  have hq' : (q : ℝ) ≠ 0 := Nat.cast_ne_zero.mpr hq
  have h1 : b ^ ((p : ℝ) / q) ≤ b ^ y := Real.rpow_le_rpow_of_exponent_le hb hy
  have h2 : (b ^ ((p : ℝ) / q)) ^ q = b ^ p := by
    rw [← Real.rpow_natCast, ← Real.rpow_mul hb0, div_mul_cancel₀ _ hq', Real.rpow_natCast]
  have h3 : L ≤ b ^ ((p : ℝ) / q) :=
    le_of_pow_le_pow_left₀ hq (Real.rpow_nonneg hb0 _) (by rw [h2]; exact h)
  exact le_trans h3 h1

/-- Over the reals, with `Real.rpow` for `Math.pow`, the NPV is continuous at rates above `-1`. -/
theorem npv_continuousOn (flows : List (Flow ℝ)) :
    ContinuousOn (npv Real.rpow flows) (Set.Ioi (-1)) := by
  have hfun : npv Real.rpow flows =
      fun rate => (flows.map fun f => f.amount * Real.rpow (1 + rate) (-f.years)).sum :=
    funext (npv_eq_sum Real.rpow flows)
  rw [hfun]
  induction flows with
  | nil => simpa using continuousOn_const
  | cons f fs ih =>
    simp only [List.map_cons, List.sum_cons]
    refine ContinuousOn.add ?_ (ih (funext (npv_eq_sum Real.rpow fs)))
    refine ContinuousOn.mul continuousOn_const ?_
    intro rate hrate
    have hne : 1 + rate ≠ 0 := by
      have : -1 < rate := hrate
      linarith
    have h1 : ContinuousAt (fun x : ℝ => x ^ (-f.years)) (1 + rate) :=
      Real.continuousAt_rpow_const _ _ (Or.inl hne)
    have h2 : ContinuousAt (fun r : ℝ => 1 + r) rate :=
      (continuous_const.add continuous_id).continuousAt
    exact (ContinuousAt.comp (f := fun r : ℝ => 1 + r) h1 h2).continuousWithinAt

/-- A sign change of the NPV between two rates above `-1` encloses a root. -/
theorem npv_root_of_sign_change (flows : List (Flow ℝ)) (low high : ℝ) (hlow : -1 < low)
    (hle : low ≤ high) (hsign : npv Real.rpow flows low * npv Real.rpow flows high < 0) :
    ∃ root, low ≤ root ∧ root ≤ high ∧ npv Real.rpow flows root = 0 := by
  have hcont : ContinuousOn (npv Real.rpow flows) (Set.Icc low high) :=
    (npv_continuousOn flows).mono (fun x hx => lt_of_lt_of_le hlow hx.1)
  rcases mul_neg_iff.mp hsign with ⟨h1, h2⟩ | ⟨h1, h2⟩
  · obtain ⟨root, hmem, hroot⟩ := intermediate_value_Icc' hle hcont ⟨h2.le, h1.le⟩
    exact ⟨root, hmem.1, hmem.2, hroot⟩
  · obtain ⟨root, hmem, hroot⟩ := intermediate_value_Icc hle hcont ⟨h1.le, h2.le⟩
    exact ⟨root, hmem.1, hmem.2, hroot⟩

/-- While a sign change of the NPV is bracketed, the bisection loop keeps it bracketed at every
pair it visits, and a number it returns has an NPV below `1e-6` in absolute value or lies
within `1e-6` of a root. -/
theorem bisectionLoop_bracket (flows : List (Flow ℝ)) (n : Nat) :
    ∀ low high : ℝ, -1 < low → low ≤ high →
      npv Real.rpow flows low * npv Real.rpow flows high < 0 →
      (∀ b ∈ bisectionVisits Real.rpow flows n low high,
          npv Real.rpow flows b.1 * npv Real.rpow flows b.2 < 0) ∧
        ∀ mid, bisectionLoop Real.rpow flows n low high = some mid →
          |npv Real.rpow flows mid| < 1e-6 ∨
            ∃ root, low ≤ root ∧ root ≤ high ∧ npv Real.rpow flows root = 0 ∧
              |root - mid| < 1e-6 := by
  induction n with
  | zero =>
    intro low high _ _ _
    exact ⟨fun b hb => by simp [bisectionVisits] at hb, fun mid h => by simp [bisectionLoop] at h⟩
  | succ n ih =>
    intro low high hlow hle hsign
    rw [bisectionVisits, bisectionLoop]
    rcases bisectionStep_cases Real.rpow flows low high with hc | hc | hc
    · rw [hc.1]
      refine ⟨fun b hb => ?_, fun mid hmid => ?_⟩
      · simp only [List.mem_singleton] at hb
        subst hb
        exact hsign
      · simp only [Option.some.injEq] at hmid
        subst hmid
        rcases hc.2 with h | h
        · exact Or.inl h
        · obtain ⟨root, h1, h2, h3⟩ := npv_root_of_sign_change flows low high hlow hle hsign
          refine Or.inr ⟨root, h1, h2, h3, ?_⟩
          rw [abs_lt]
          constructor <;> linarith
    · rw [hc.1]
      have hnext := ih low ((low + high) / 2) hlow (by linarith) hc.2.2.2
      refine ⟨fun b hb => ?_, fun mid hmid => ?_⟩
      · rcases List.mem_cons.mp hb with rfl | hb
        · exact hsign
        · exact hnext.1 b hb
      · rcases hnext.2 mid hmid with h | ⟨root, h1, h2, h3, h4⟩
        · exact Or.inl h
        · exact Or.inr ⟨root, h1, by linarith, h3, h4⟩
    · rw [hc.1]
      have hmidne : npv Real.rpow flows ((low + high) / 2) ≠ 0 := by
        intro h0
        have := hc.2.1
        rw [h0] at this
        norm_num at this
      have hlowne : npv Real.rpow flows low ≠ 0 := by
        intro h0
        rw [h0, zero_mul] at hsign
        exact lt_irrefl _ hsign
      have hpos : 0 < npv Real.rpow flows low * npv Real.rpow flows ((low + high) / 2) :=
        lt_of_le_of_ne hc.2.2.2 (Ne.symm (mul_ne_zero hlowne hmidne))
      have hsign' : npv Real.rpow flows ((low + high) / 2) * npv Real.rpow flows high < 0 := by
        rcases mul_neg_iff.mp hsign with ⟨a, b⟩ | ⟨a, b⟩
        · have : 0 < npv Real.rpow flows ((low + high) / 2) := (pos_iff_pos_of_mul_pos hpos).mp a
          exact mul_neg_of_pos_of_neg this b
        · have : npv Real.rpow flows ((low + high) / 2) < 0 := (neg_iff_neg_of_mul_pos hpos).mp a
          exact mul_neg_of_neg_of_pos this b
      have hnext := ih ((low + high) / 2) high (by linarith) (by linarith) hsign'
      refine ⟨fun b hb => ?_, fun mid hmid => ?_⟩
      · rcases List.mem_cons.mp hb with rfl | hb
        · exact hsign
        · exact hnext.1 b hb
      · rcases hnext.2 mid hmid with h | ⟨root, h1, h2, h3, h4⟩
        · exact Or.inl h
        · exact Or.inr ⟨root, by linarith, h2, h3, h4⟩

/-! ### Worked input: `-100` now, `+110` one Julian year later -/

/-- The first Newton-Raphson iteration on `-100` now and `110` in one year returns `0.1`. -/
theorem one_year_newton :
    newtonLoop Real.rpow [{ years := 0, amount := -100 }, { years := 1, amount := 110 }] 100
      defaultGuess = some defaultGuess := by
  rw [newtonLoop]
  simp [newtonStep, newtonSums_eq, defaultGuess]
  norm_num
  rw [if_neg (by rw [abs_of_pos] <;> norm_num)]

/-- The call `calculateIRR` with the default guess on `-100` at `t0` and `+110` one Julian year
later returns the guess itself, `0.1`. -/
theorem calculateIRR_oneYear (t0 : Int) :
    calculateIRR Real.rpow (some [⟨t0, -100⟩, ⟨t0 + 31557600000, 110⟩]) defaultGuess =
      some defaultGuess := by
  simp [calculateIRR, sortByDate, List.insertionSort, List.orderedInsert, byDate, toFlows,
    msPerYear]
  norm_num
  exact one_year_newton

/-- The same call with the flows given in the other order. -/
theorem calculateIRR_oneYear_reversed (t0 : Int) :
    calculateIRR Real.rpow (some [⟨t0 + 31557600000, 110⟩, ⟨t0, -100⟩]) defaultGuess =
      some defaultGuess := by
  simp [calculateIRR, sortByDate, List.insertionSort, List.orderedInsert, byDate, toFlows,
    msPerYear]
  norm_num
  exact one_year_newton

/-- The same call at `t0 = 0`. -/
theorem calculateIRR_oneYear_zero :
    calculateIRR Real.rpow (some [⟨0, -100⟩, ⟨31557600000, 110⟩]) defaultGuess =
      some defaultGuess := by
  simpa using calculateIRR_oneYear 0

/-- The NPV of `-100` now and `110` in a year changes sign between `-0.99` and `10`. -/
theorem npv_oneYear_sign_change :
    npv Real.rpow [{ years := 0, amount := -100 }, { years := 1, amount := 110 }] (-0.99) *
      npv Real.rpow [{ years := 0, amount := -100 }, { years := 1, amount := 110 }] 10 < 0 := by
  simp [npv_eq_sum, Real.rpow_neg_one]
  norm_num

/-! ### Worked input: two deposits of `100` one Julian year apart -/

/-- The time-adjusted flows of `100` at time 0 and `100` one Julian year later. -/
theorem timeAdjusted_twoDeposits :
    timeAdjusted ([⟨0, 100⟩, ⟨31557600000, 100⟩] : List (CashFlow ℝ)) =
      [{ years := 0, amount := 100 }, { years := 1, amount := 100 }] := by
  simp [timeAdjusted, sortByDate, List.insertionSort, List.orderedInsert, byDate, toFlows,
    msPerYear]
  norm_num

/-- The NPV of two deposits of `100` a year apart is at least `100` at every rate above `-1`. -/
theorem npv_twoDeposits (rate : ℝ) (h : -1 < rate) :
    100 ≤ npv Real.rpow [{ years := 0, amount := 100 }, { years := 1, amount := 100 }] rate := by
  have hpos : 0 < 1 + rate := by linarith
  simp [npv_eq_sum, Real.rpow_neg_one]
  positivity

/-- The sums of the Newton-Raphson loop on two deposits of `100` a year apart. -/
theorem newtonSums_twoDeposits (rate : ℝ) (h : -1 < rate) :
    newtonSums Real.rpow [{ years := 0, amount := 100 }, { years := 1, amount := 100 }] rate =
      (100 + 100 * (1 + rate)⁻¹, -(100 * ((1 + rate) ^ 2)⁻¹)) := by
  have hpos : 0 < 1 + rate := by linarith
  simp [newtonSums_eq]
  constructor
  · exact Real.rpow_neg_one _
  · rw [show (-1 - 1 : ℝ) = -((2 : ℕ) : ℝ) by norm_num, Real.rpow_neg hpos.le,
      Real.rpow_natCast]

/-- On two deposits of `100` a year apart, at a rate from `0` to `10`, the loop body takes a
Newton step to `rate + (1 + rate) ^ 2 + (1 + rate)`. -/
theorem newtonStep_twoDeposits (rate : ℝ) (h0 : 0 ≤ rate) (h10 : rate ≤ 10) :
    newtonStep Real.rpow [{ years := 0, amount := 100 }, { years := 1, amount := 100 }] rate =
      .stepped (boundRate (rate + (1 + rate) ^ 2 + (1 + rate))) := by
  have hpos : 0 < 1 + rate := by linarith
  have hs := newtonSums_twoDeposits rate (by linarith)
  have hnew : rate - (100 + 100 * (1 + rate)⁻¹) / -(100 * ((1 + rate) ^ 2)⁻¹) =
      rate + (1 + rate) ^ 2 + (1 + rate) := by
    field_simp
    ring
  have hd : (1e-10 : ℝ) ≤ |-(100 * ((1 + rate) ^ 2)⁻¹)| := by
    rw [abs_neg, abs_of_pos (by positivity)]
    have : (1 + rate) ^ 2 ≤ 121 := by nlinarith
    have : (121 : ℝ)⁻¹ ≤ ((1 + rate) ^ 2)⁻¹ := inv_anti₀ (by positivity) this
    norm_num at this ⊢
    linarith
  have hstep := newtonStep_eq_stepped Real.rpow
    [{ years := 0, amount := 100 }, { years := 1, amount := 100 }] rate
    (by rw [hs]; exact hd)
    (by
      rw [hs]
      dsimp only
      rw [hnew, abs_of_pos (by nlinarith)]
      norm_num
      nlinarith)
  rw [hstep, hs]
  dsimp only
  rw [hnew]

/-- On two deposits of `100` a year apart the Newton-Raphson loop stays at rate `10`. -/
theorem newtonLoop_twoDeposits_ten (n : Nat) :
    newtonLoop Real.rpow [{ years := 0, amount := 100 }, { years := 1, amount := 100 }] n 10 =
      bisectionIRR Real.rpow [{ years := 0, amount := 100 }, { years := 1, amount := 100 }] := by
  induction n with
  | zero => rfl
  | succ n ih =>
    rw [newtonLoop, newtonStep_twoDeposits 10 (by norm_num) le_rfl]
    have : boundRate ((10 : ℝ) + (1 + 10) ^ 2 + (1 + 10)) = 10 := by
      norm_num [boundRate]
    rw [this]
    exact ih

/-- The function `bisectionIRR` on two deposits of `100` a year apart: 23 times `low = mid`,
then the midpoint is returned for the half-width alone. -/
theorem bisectionIRR_twoDeposits :
    bisectionIRR Real.rpow [{ years := 0, amount := 100 }, { years := 1, amount := 100 }] =
      some (10 - 10.99 / 2 ^ 24) := by
  have h := bisectionLoop_of_positive Real.rpow
    [{ years := 0, amount := 100 }, { years := 1, amount := 100 }] (-0.99) 10
    (fun rate hr => le_trans (by norm_num) (npv_twoDeposits rate (by linarith [hr])))
    23 100 (-0.99) le_rfl (by norm_num) (by norm_num) (by norm_num) (by norm_num)
  rw [bisectionIRR, h]
  norm_num

/-- The call `calculateIRR` on `100` at time 0 and `100` one Julian year later, with the default
guess: Newton steps from `0.1` to `2.41` to `10`, where the loop stays, then bisection. -/
theorem calculateIRR_twoDeposits :
    calculateIRR Real.rpow (some [⟨0, 100⟩, ⟨31557600000, 100⟩]) defaultGuess =
      some (10 - 10.99 / 2 ^ 24) := by
  rw [calculateIRR_eq_newtonLoop _ _ _ (by simp), timeAdjusted_twoDeposits, newtonLoop,
    newtonStep_twoDeposits _ (by norm_num [defaultGuess]) (by norm_num [defaultGuess])]
  have h1 : boundRate ((defaultGuess : ℝ) + (1 + defaultGuess) ^ 2 + (1 + defaultGuess)) =
      2.41 := by
    norm_num [boundRate, defaultGuess]
  rw [h1]
  dsimp only
  rw [newtonLoop, newtonStep_twoDeposits _ (by norm_num) (by norm_num)]
  have h2 : boundRate ((2.41 : ℝ) + (1 + 2.41) ^ 2 + (1 + 2.41)) = 10 := by
    norm_num [boundRate]
  rw [h2]
  dsimp only
  rw [newtonLoop_twoDeposits_ten, bisectionIRR_twoDeposits]

/-- On two deposits of `100` one Julian year apart the number that `calculateIRR` takes from
`bisectionIRR` is a rate at which the NPV is not below `1e-6` in absolute value, and no root of
the NPV lies within `1e-6` of it. -/
theorem calculateIRR_same_sign_not_a_root :
    ∃ r : ℝ,
      calculateIRR Real.rpow (some [⟨0, 100⟩, ⟨31557600000, 100⟩]) defaultGuess = some r ∧
      ¬ (|npv Real.rpow (timeAdjusted [⟨0, 100⟩, ⟨31557600000, 100⟩]) r| < 1e-6 ∨
          ∃ root : ℝ, npv Real.rpow (timeAdjusted [⟨0, 100⟩, ⟨31557600000, 100⟩]) root = 0 ∧
            |r - root| < 1e-6) := by
  refine ⟨_, calculateIRR_twoDeposits, ?_⟩
  rw [timeAdjusted_twoDeposits]
  rintro (h | ⟨root, hroot, hclose⟩)
  · have := npv_twoDeposits (10 - 10.99 / 2 ^ 24) (by norm_num)
    rw [abs_of_pos (by linarith)] at h
    norm_num at h
    linarith
  · have hr : -1 < root := by
      have := (abs_lt.mp hclose).2
      norm_num at this
      linarith
    have := npv_twoDeposits root hr
    linarith

/-! ### Worked inputs: three flows one Julian year apart -/

/-- The time-adjusted flows of three flows one Julian year apart. -/
theorem timeAdjusted_threeYears (a b c : ℝ) :
    timeAdjusted ([⟨0, a⟩, ⟨31557600000, b⟩, ⟨63115200000, c⟩] : List (CashFlow ℝ)) =
      [{ years := 0, amount := a }, { years := 1, amount := b }, { years := 2, amount := c }] := by
  simp [timeAdjusted, sortByDate, List.insertionSort, List.orderedInsert, byDate, toFlows,
    msPerYear]
  norm_num

/-- The sums of the Newton-Raphson loop on flows dated 0, 1 and 2 years. -/
theorem newtonSums_threeYears (a b c rate : ℝ) (h : -1 < rate) :
    newtonSums Real.rpow
        [{ years := 0, amount := a }, { years := 1, amount := b }, { years := 2, amount := c }]
        rate =
      (a + (b * (1 + rate)⁻¹ + c * ((1 + rate) ^ 2)⁻¹),
        -(b * ((1 + rate) ^ 2)⁻¹ + 2 * c * ((1 + rate) ^ 3)⁻¹)) := by
  have hpos : 0 < 1 + rate := by linarith
  have e1 : (1 + rate) ^ (-1 : ℝ) = (1 + rate)⁻¹ := Real.rpow_neg_one _
  have e2 : (1 + rate) ^ (-2 : ℝ) = ((1 + rate) ^ 2)⁻¹ := by
    have := rpow_neg_nat (1 + rate) hpos 2
    norm_num at this
    exact this
  have e2' : (1 + rate) ^ (-1 - 1 : ℝ) = ((1 + rate) ^ 2)⁻¹ := by
    rw [show (-1 - 1 : ℝ) = -2 by norm_num, e2]
  have e3 : (1 + rate) ^ (-2 - 1 : ℝ) = ((1 + rate) ^ 3)⁻¹ := by
    have := rpow_neg_nat (1 + rate) hpos 3
    norm_num at this
    rw [show (-2 - 1 : ℝ) = -3 by norm_num, this]
  simp [newtonSums_eq, e1, e2, e2', e3]

/-- The NPV of flows dated 0, 1 and 2 years at a rate above `-1`. -/
theorem npv_threeYears (a b c rate : ℝ) (h : -1 < rate) :
    npv Real.rpow
        [{ years := 0, amount := a }, { years := 1, amount := b }, { years := 2, amount := c }]
        rate =
      a + (b * (1 + rate)⁻¹ + c * ((1 + rate)⁻¹) ^ 2) := by
  rw [← newtonSums_fst, newtonSums_threeYears a b c rate h, inv_pow]

/-- The call `calculateIRR` with the default guess on `-1054550` at time 0, `+12200000` one
Julian year later and `-6599449` two Julian years later: a Newton step from `0.1` to `10` (bounded
from about `27.7`), then a step shorter than `1e-7` from `10`, which is returned as it is. -/
theorem calculateIRR_threeYears :
    calculateIRR Real.rpow
        (some [⟨0, -1054550⟩, ⟨31557600000, 12200000⟩, ⟨63115200000, -6599449⟩]) defaultGuess =
      some (10 + 11 / 121001102) := by
  rw [calculateIRR_eq_newtonLoop _ _ _ (by simp), timeAdjusted_threeYears, newtonLoop]
  have s1 := newtonSums_threeYears (-1054550) 12200000 (-6599449) defaultGuess
    (by norm_num [defaultGuess])
  have s2 := newtonSums_threeYears (-1054550) 12200000 (-6599449) 10 (by norm_num)
  norm_num [defaultGuess] at s1 s2
  have step1 := newtonStep_eq_stepped Real.rpow
    [{ years := 0, amount := -1054550 }, { years := 1, amount := 12200000 },
      { years := 2, amount := -6599449 }] defaultGuess
    (by norm_num [defaultGuess, s1, abs_of_pos]) (by norm_num [defaultGuess, s1, abs_of_pos])
  have step2 := newtonStep_eq_converged Real.rpow
    [{ years := 0, amount := -1054550 }, { years := 1, amount := 12200000 },
      { years := 2, amount := -6599449 }] 10
    (by norm_num [s2, abs_of_pos]) (by norm_num [s2, abs_of_pos])
  norm_num [defaultGuess, s1, boundRate] at step1
  norm_num [s2] at step2
  norm_num [defaultGuess]
  rw [step1]
  dsimp only
  rw [newtonLoop, step2]

/-- The NPV of `+1099999890000004`, `-2419999879000000` and `+1331000000000000` at 0, 1 and 2
years is at least `1.25` at every rate above `-1`: it is
`1331000000000000 * (x - 10/11) ^ 2 + 121000000 * (x - 10/11) + 4` in `x = 1 / (1 + rate)`. -/
theorem npv_noRoot (rate : ℝ) (h : -1 < rate) :
    1.25 ≤ npv Real.rpow
      [{ years := 0, amount := 1099999890000004 }, { years := 1, amount := -2419999879000000 },
        { years := 2, amount := 1331000000000000 }] rate := by
  rw [npv_threeYears _ _ _ rate h]
  generalize (1 + rate)⁻¹ = x
  have := sq_nonneg (x - 10 / 11 + 121000000 / (2 * 1331000000000000))
  norm_num at this ⊢
  nlinarith [this]

/-- The call `calculateIRR` with the default guess on `+1099999890000004` at time 0,
`-2419999879000000` one Julian year later and `+1331000000000000` two Julian years later: at
`0.1` the NPV is `4` and the derivative `-100000000`, so the first Newton step is `4e-8` long and
is returned. -/
theorem calculateIRR_noRoot :
    calculateIRR Real.rpow
        (some [⟨0, 1099999890000004⟩, ⟨31557600000, -2419999879000000⟩,
          ⟨63115200000, 1331000000000000⟩])
        defaultGuess =
      some (0.1 + 4e-8) := by
  rw [calculateIRR_eq_newtonLoop _ _ _ (by simp), timeAdjusted_threeYears, newtonLoop]
  have s1 := newtonSums_threeYears 1099999890000004 (-2419999879000000) 1331000000000000
    defaultGuess (by norm_num [defaultGuess])
  norm_num [defaultGuess] at s1
  have step1 := newtonStep_eq_converged Real.rpow
    [{ years := 0, amount := 1099999890000004 }, { years := 1, amount := -2419999879000000 },
      { years := 2, amount := 1331000000000000 }] defaultGuess
    (by norm_num [defaultGuess, s1, abs_of_pos]) (by norm_num [defaultGuess, s1, abs_of_pos])
  norm_num [defaultGuess, s1] at step1
  norm_num [defaultGuess]
  rw [step1]

/-! ### Worked input: the scenario of 2023 -/

/-- The time-adjusted flows of the scenario `-1000` on 2023-01-01, `-500` on 2023-07-01 and
`+1650` on 2024-01-01: 181 and 365 days are `724/1461` and `1460/1461` of a Julian year. -/
theorem timeAdjusted_scenario :
    timeAdjusted
        ([⟨1672531200000, -1000⟩, ⟨1688169600000, -500⟩, ⟨1704067200000, 1650⟩] :
          List (CashFlow ℝ)) =
      [{ years := 0, amount := -1000 }, { years := 724 / 1461, amount := -500 },
        { years := 1460 / 1461, amount := 1650 }] := by
  simp [timeAdjusted, sortByDate, List.insertionSort, List.orderedInsert, byDate, toFlows,
    msPerYear]
  norm_num

/-- The NPV of the scenario at a rate above `-1`, with the discount factor of the last flow
split at the second one. -/
theorem npv_scenario (rate : ℝ) (h : -1 < rate) :
    npv Real.rpow
        [{ years := 0, amount := -1000 }, { years := 724 / 1461, amount := -500 },
          { years := 1460 / 1461, amount := 1650 }] rate =
      (1 + rate) ^ (-(724 / 1461 : ℝ)) * (1650 * (1 + rate) ^ (-(736 / 1461 : ℝ)) - 500) -
        1000 := by
  have hpos : 0 < 1 + rate := by linarith
  have hsplit : (1 + rate) ^ (-(1460 / 1461 : ℝ)) =
      (1 + rate) ^ (-(724 / 1461 : ℝ)) * (1 + rate) ^ (-(736 / 1461 : ℝ)) := by
    rw [← Real.rpow_add hpos]
    norm_num
  simp [npv_eq_sum]
  rw [hsplit]
  ring

/-- The NPV of the scenario is at least `0.3` at every rate from above `-1` up to `0.1201`. -/
theorem npv_scenario_low (rate : ℝ) (h1 : -1 < rate) (h2 : rate ≤ 0.1201) :
    0.3 ≤ npv Real.rpow
      [{ years := 0, amount := -1000 }, { years := 724 / 1461, amount := -500 },
        { years := 1460 / 1461, amount := 1650 }] rate := by
  have hpos : 0 < 1 + rate := by linarith
  have hle : 1 + rate ≤ 11201 / 10000 := by norm_num at h2 ⊢; linarith
  have hB0 : (0 : ℝ) ≤ 11201 / 10000 := by norm_num
  have hA : (10000 / 10579 : ℝ) ≤ (1 + rate) ^ (-(724 / 1461 : ℝ)) := by
    have hU : (11201 / 10000 : ℝ) ^ (724 / 1461 : ℝ) ≤ 10579 / 10000 :=
      rpow_le_of_pow_le _ _ _ 56 113 (by norm_num) (by norm_num) (by norm_num) (by norm_num)
        (by norm_num)
    have hmono : (11201 / 10000 : ℝ) ^ (-(724 / 1461 : ℝ)) ≤ (1 + rate) ^ (-(724 / 1461 : ℝ)) :=
      Real.rpow_le_rpow_of_exponent_nonpos hpos hle (by norm_num)
    refine le_trans ?_ hmono
    rw [Real.rpow_neg hB0, show (10000 / 10579 : ℝ) = (10579 / 10000)⁻¹ by norm_num]
    exact inv_anti₀ (Real.rpow_pos_of_pos (by norm_num) _) hU
  have hE : (10000 / 10589 : ℝ) ≤ (1 + rate) ^ (-(736 / 1461 : ℝ)) := by
    have hU : (11201 / 10000 : ℝ) ^ (736 / 1461 : ℝ) ≤ 10589 / 10000 :=
      rpow_le_of_pow_le _ _ _ 66 131 (by norm_num) (by norm_num) (by norm_num) (by norm_num)
        (by norm_num)
    have hmono : (11201 / 10000 : ℝ) ^ (-(736 / 1461 : ℝ)) ≤ (1 + rate) ^ (-(736 / 1461 : ℝ)) :=
      Real.rpow_le_rpow_of_exponent_nonpos hpos hle (by norm_num)
    refine le_trans ?_ hmono
    rw [Real.rpow_neg hB0, show (10000 / 10589 : ℝ) = (10589 / 10000)⁻¹ by norm_num]
    exact inv_anti₀ (Real.rpow_pos_of_pos (by norm_num) _) hU
  rw [npv_scenario rate h1]
  generalize (1 + rate) ^ (-(724 / 1461 : ℝ)) = A at hA ⊢
  generalize (1 + rate) ^ (-(736 / 1461 : ℝ)) = E at hE ⊢
  have hE' : (0 : ℝ) ≤ 1650 * (10000 / 10589) - 500 := by norm_num
  have hprod : (10000 / 10579 : ℝ) * (1650 * (10000 / 10589) - 500) ≤ A * (1650 * E - 500) :=
    mul_le_mul hA (by linarith) hE' (le_trans (by norm_num) hA)
  have hnum : (0.3 : ℝ) ≤ (10000 / 10579 : ℝ) * (1650 * (10000 / 10589) - 500) - 1000 := by
    norm_num
  linarith

/-- The NPV of the scenario is at most `-0.16` at every rate from `0.1209` on. -/
theorem npv_scenario_high (rate : ℝ) (h : 0.1209 ≤ rate) :
    npv Real.rpow
      [{ years := 0, amount := -1000 }, { years := 724 / 1461, amount := -500 },
        { years := 1460 / 1461, amount := 1650 }] rate ≤ -0.16 := by
  have hle : (11209 / 10000 : ℝ) ≤ 1 + rate := by norm_num at h ⊢; linarith
  have hpos : 0 < 1 + rate := by linarith
  have hB0 : (0 : ℝ) ≤ 11209 / 10000 := by norm_num
  have hA : (1 + rate) ^ (-(724 / 1461 : ℝ)) ≤ 10000 / 10581 := by
    have hL : (10581 / 10000 : ℝ) ≤ (11209 / 10000 : ℝ) ^ (724 / 1461 : ℝ) :=
      le_rpow_of_pow_le _ _ _ 55 111 (by norm_num) (by norm_num) (by norm_num) (by norm_num)
    have hmono : (1 + rate) ^ (-(724 / 1461 : ℝ)) ≤ (11209 / 10000 : ℝ) ^ (-(724 / 1461 : ℝ)) :=
      Real.rpow_le_rpow_of_exponent_nonpos (by norm_num) hle (by norm_num)
    refine le_trans hmono ?_
    rw [Real.rpow_neg hB0, show (10000 / 10581 : ℝ) = (10581 / 10000)⁻¹ by norm_num]
    exact inv_anti₀ (by norm_num) hL
  have hE : (1 + rate) ^ (-(736 / 1461 : ℝ)) ≤ 10000 / 10591 := by
    have hL : (10591 / 10000 : ℝ) ≤ (11209 / 10000 : ℝ) ^ (736 / 1461 : ℝ) :=
      le_rpow_of_pow_le _ _ _ 67 133 (by norm_num) (by norm_num) (by norm_num) (by norm_num)
    have hmono : (1 + rate) ^ (-(736 / 1461 : ℝ)) ≤ (11209 / 10000 : ℝ) ^ (-(736 / 1461 : ℝ)) :=
      Real.rpow_le_rpow_of_exponent_nonpos (by norm_num) hle (by norm_num)
    refine le_trans hmono ?_
    rw [Real.rpow_neg hB0, show (10000 / 10591 : ℝ) = (10591 / 10000)⁻¹ by norm_num]
    exact inv_anti₀ (by norm_num) hL
  have hApos : 0 < (1 + rate) ^ (-(724 / 1461 : ℝ)) := Real.rpow_pos_of_pos hpos _
  rw [npv_scenario rate (by linarith)]
  generalize (1 + rate) ^ (-(724 / 1461 : ℝ)) = A at hA hApos ⊢
  generalize (1 + rate) ^ (-(736 / 1461 : ℝ)) = E at hE ⊢
  rcases le_or_lt (1650 * E - 500) 0 with hneg | hposE
  · have : A * (1650 * E - 500) ≤ 0 := mul_nonpos_of_nonneg_of_nonpos hApos.le hneg
    norm_num
    linarith
  · have hprod : A * (1650 * E - 500) ≤ (10000 / 10581 : ℝ) * (1650 * (10000 / 10591) - 500) :=
      mul_le_mul hA (by linarith) hposE.le (by norm_num)
    have hnum : (10000 / 10581 : ℝ) * (1650 * (10000 / 10591) - 500) - 1000 ≤ -0.16 := by
      norm_num
    linarith

/-- The NPV of the scenario is at least `150` at every rate from above `-1` up to `0`. -/
theorem npv_scenario_nonpos_rate (rate : ℝ) (h1 : -1 < rate) (h2 : rate ≤ 0) :
    150 ≤ npv Real.rpow
      [{ years := 0, amount := -1000 }, { years := 724 / 1461, amount := -500 },
        { years := 1460 / 1461, amount := 1650 }] rate := by
  have hpos : 0 < 1 + rate := by linarith
  have hA : 1 ≤ (1 + rate) ^ (-(724 / 1461 : ℝ)) :=
    Real.one_le_rpow_of_pos_of_le_one_of_nonpos hpos (by linarith) (by norm_num)
  have hE : 1 ≤ (1 + rate) ^ (-(736 / 1461 : ℝ)) :=
    Real.one_le_rpow_of_pos_of_le_one_of_nonpos hpos (by linarith) (by norm_num)
  rw [npv_scenario rate h1]
  generalize (1 + rate) ^ (-(724 / 1461 : ℝ)) = A at hA ⊢
  generalize (1 + rate) ^ (-(736 / 1461 : ℝ)) = E at hE ⊢
  have hprod : (1 : ℝ) * (1650 * 1 - 500) ≤ A * (1650 * E - 500) :=
    mul_le_mul hA (by linarith) (by norm_num) (by linarith)
  linarith

/-- The derivative accumulated by the Newton-Raphson loop on the scenario. -/
theorem newtonSums_scenario_snd (rate : ℝ) :
    (newtonSums Real.rpow
        [{ years := 0, amount := -1000 }, { years := 724 / 1461, amount := -500 },
          { years := 1460 / 1461, amount := 1650 }] rate).2 =
      724 / 1461 * 500 * (1 + rate) ^ (-(724 / 1461 : ℝ) - 1) -
        1460 / 1461 * 1650 * (1 + rate) ^ (-(1460 / 1461 : ℝ) - 1) := by
  simp [newtonSums_eq]
  ring

/-- The derivative of the scenario is at most `1900 * m` in absolute value when both of its
discount factors are at most `m`. -/
theorem abs_derivative_scenario_le (rate m : ℝ) (hpos : 0 < 1 + rate)
    (h1 : (1 + rate) ^ (-(724 / 1461 : ℝ) - 1) ≤ m)
    (h2 : (1 + rate) ^ (-(1460 / 1461 : ℝ) - 1) ≤ m) :
    |(newtonSums Real.rpow
        [{ years := 0, amount := -1000 }, { years := 724 / 1461, amount := -500 },
          { years := 1460 / 1461, amount := 1650 }] rate).2| ≤ 1900 * m := by
  have p1 : 0 < (1 + rate) ^ (-(724 / 1461 : ℝ) - 1) := Real.rpow_pos_of_pos hpos _
  have p2 : 0 < (1 + rate) ^ (-(1460 / 1461 : ℝ) - 1) := Real.rpow_pos_of_pos hpos _
  rw [newtonSums_scenario_snd, abs_le]
  generalize (1 + rate) ^ (-(724 / 1461 : ℝ) - 1) = P at h1 p1 ⊢
  generalize (1 + rate) ^ (-(1460 / 1461 : ℝ) - 1) = Q at h2 p2 ⊢
  constructor <;> nlinarith

/-- The derivative of the scenario is at most `1900` in absolute value at rates from `0` on. -/
theorem abs_derivative_scenario_nonneg_rate (rate : ℝ) (h : 0 ≤ rate) :
    |(newtonSums Real.rpow
        [{ years := 0, amount := -1000 }, { years := 724 / 1461, amount := -500 },
          { years := 1460 / 1461, amount := 1650 }] rate).2| ≤ 1900 := by
  have := abs_derivative_scenario_le rate 1 (by linarith)
    (Real.rpow_le_one_of_one_le_of_nonpos (by linarith) (by norm_num))
    (Real.rpow_le_one_of_one_le_of_nonpos (by linarith) (by norm_num))
  linarith

/-- The derivative of the scenario is at most `1.9e7` in absolute value at rates from `-0.99`
to `0`. -/
theorem abs_derivative_scenario_nonpos_rate (rate : ℝ) (h1 : -0.99 ≤ rate) (h2 : rate ≤ 0) :
    |(newtonSums Real.rpow
        [{ years := 0, amount := -1000 }, { years := 724 / 1461, amount := -500 },
          { years := 1460 / 1461, amount := 1650 }] rate).2| ≤ 19000000 := by
  have hb : (1 / 100 : ℝ) ≤ 1 + rate := by norm_num at h1 ⊢; linarith
  have hpos : 0 < 1 + rate := by linarith
  have hsq : (1 + rate) ^ (-2 : ℝ) ≤ 10000 := by
    have h100 : (1 / 100 : ℝ) ^ (-2 : ℝ) = 10000 := by
      rw [show (-2 : ℝ) = -((2 : ℕ) : ℝ) by norm_num, rpow_neg_nat (1 / 100) (by norm_num) 2]
      norm_num
    rw [← h100]
    exact Real.rpow_le_rpow_of_exponent_nonpos (by norm_num) hb (by norm_num)
  have := abs_derivative_scenario_le rate 10000 hpos
    (le_trans (Real.rpow_le_rpow_of_exponent_ge hpos (by linarith) (by norm_num)) hsq)
    (le_trans (Real.rpow_le_rpow_of_exponent_ge hpos (by linarith) (by norm_num)) hsq)
  linarith

/-- A rate of the scenario at which the NPV is below `1e-6`, or below `1e-7` times the
derivative, in absolute value lies strictly between `0.1201` and `0.1209`. -/
theorem scenario_rate_near_root (rate : ℝ) (h1 : -0.99 ≤ rate)
    (h : |npv Real.rpow
          [{ years := 0, amount := -1000 }, { years := 724 / 1461, amount := -500 },
            { years := 1460 / 1461, amount := 1650 }] rate| < 1e-6 ∨
        |npv Real.rpow
          [{ years := 0, amount := -1000 }, { years := 724 / 1461, amount := -500 },
            { years := 1460 / 1461, amount := 1650 }] rate| <
          1e-7 * |(newtonSums Real.rpow
            [{ years := 0, amount := -1000 }, { years := 724 / 1461, amount := -500 },
              { years := 1460 / 1461, amount := 1650 }] rate).2|) :
    0.1201 < rate ∧ rate < 0.1209 := by
  have hm1 : -1 < rate := by norm_num at h1 ⊢; linarith
  constructor
  · by_contra hle
    rw [not_lt] at hle
    have hlow := npv_scenario_low rate hm1 hle
    rcases le_or_lt rate 0 with h0 | h0
    · have h150 := npv_scenario_nonpos_rate rate hm1 h0
      have hd := abs_derivative_scenario_nonpos_rate rate h1 h0
      rw [abs_of_pos (by linarith)] at h
      rcases h with h | h
      · norm_num at h; linarith
      · norm_num at h; linarith
    · have hd := abs_derivative_scenario_nonneg_rate rate h0.le
      rw [abs_of_pos (by norm_num at hlow ⊢; linarith)] at h
      rcases h with h | h
      · norm_num at h hlow; linarith
      · norm_num at h hlow; linarith
  · by_contra hge
    rw [not_lt] at hge
    have hhigh := npv_scenario_high rate hge
    have hd := abs_derivative_scenario_nonneg_rate rate (by norm_num at hge ⊢; linarith)
    rw [abs_of_neg (by norm_num at hhigh ⊢; linarith)] at h
    rcases h with h | h
    · norm_num at h hhigh; linarith
    · norm_num at h hhigh; linarith

/-- On the scenario `-1000` on 2023-01-01, `-500` on 2023-07-01 and `+1650` on 2024-01-01,
`calculateIRR` with the default guess returns a number within `1e-6` of the open interval from
`0.1201` to `0.1209`, whichever loop returns it. -/
theorem calculateIRR_scenario :
    ∃ r : ℝ,
      calculateIRR Real.rpow
          (some [⟨1672531200000, -1000⟩, ⟨1688169600000, -500⟩, ⟨1704067200000, 1650⟩])
          defaultGuess = some r ∧
        0.1201 - 1e-6 < r ∧ r < 0.1209 + 1e-6 := by
  rw [calculateIRR_eq_newtonLoop _ _ _ (by simp), timeAdjusted_scenario]
  obtain ⟨r, hr⟩ := newtonLoop_isSome Real.rpow
    [{ years := 0, amount := -1000 }, { years := 724 / 1461, amount := -500 },
      { years := 1460 / 1461, amount := 1650 }] 100 (defaultGuess : ℝ)
  refine ⟨r, hr, ?_⟩
  rcases newtonLoop_result Real.rpow _ r 100 defaultGuess false hr with ⟨v, hv, hc⟩ | ⟨_, hb⟩
  · have hge := newtonVisits_ge Real.rpow _ 100 (defaultGuess : ℝ) false
      (by norm_num [defaultGuess]) v hv
    have hconv := newtonStep_converged Real.rpow _ v.1 r hc
    have hnear := scenario_rate_near_root v.1 hge (Or.inr hconv.2.2.2)
    have hclose := abs_lt.mp hconv.2.2.1
    norm_num at hclose hnear ⊢
    constructor <;> linarith [hclose.1, hclose.2, hnear.1, hnear.2]
  · have hmem := bisectionIRR_mem Real.rpow _ r hb
    have hlow := npv_scenario_low (-0.99) (by norm_num) (by norm_num)
    have hhigh := npv_scenario_high 10 (by norm_num)
    have hsign : npv Real.rpow
        [{ years := 0, amount := -1000 }, { years := 724 / 1461, amount := -500 },
          { years := 1460 / 1461, amount := 1650 }] (-0.99) *
        npv Real.rpow
          [{ years := 0, amount := -1000 }, { years := 724 / 1461, amount := -500 },
            { years := 1460 / 1461, amount := 1650 }] 10 < 0 :=
      mul_neg_of_pos_of_neg (by norm_num at hlow ⊢; linarith) (by norm_num at hhigh ⊢; linarith)
    rcases (bisectionLoop_bracket _ 100 (-0.99) 10 (by norm_num) (by norm_num) hsign).2 r hb
      with hn | ⟨root, hr1, _, h0, hclose⟩
    · have hnear := scenario_rate_near_root r hmem.1 (Or.inl hn)
      norm_num at hnear ⊢
      constructor <;> linarith [hnear.1, hnear.2]
    · have hnear := scenario_rate_near_root root hr1 (Or.inl (by rw [h0]; norm_num))
      have hclose' := abs_lt.mp hclose
      norm_num at hclose' hnear ⊢
      constructor <;> linarith [hclose'.1, hclose'.2, hnear.1, hnear.2]

/-! ### The properties of the specification -/

/-- C1: an absent collection, or one with fewer than 2 entries, makes `calculateIRR` return
`null` for every initial guess, and neither loop runs its body even once. -/
theorem calculateIRR_fewer_than_two (pow : α → α → α) (cashFlows : Option (List (CashFlow α)))
    (guess : α) (h : cashFlows = none ∨ ∃ l, cashFlows = some l ∧ l.length < 2) :
    calculateIRR pow cashFlows guess = none ∧
      calculateIRRVisits pow cashFlows guess = ([], []) := by
  rcases h with rfl | ⟨l, rfl, hl⟩
  · exact ⟨rfl, rfl⟩
  · simp [calculateIRR, calculateIRRVisits, hl]

/-- The statement of C1 at the single flow `{0, -100}`. -/
theorem calculateIRR_fewer_than_two_witness :
    ((some [⟨0, -100⟩] : Option (List (CashFlow ℝ))) = none ∨
        ∃ l, (some [⟨0, -100⟩] : Option (List (CashFlow ℝ))) = some l ∧ l.length < 2) ∧
      calculateIRR Real.rpow (some [⟨0, -100⟩]) defaultGuess = none ∧
      calculateIRRVisits Real.rpow (some [⟨0, -100⟩]) defaultGuess = ([], []) :=
  ⟨Or.inr ⟨_, rfl, by decide⟩,
    calculateIRR_fewer_than_two Real.rpow (some [⟨0, -100⟩]) defaultGuess
      (Or.inr ⟨_, rfl, by decide⟩)⟩

/-- C2: for every timestamp `t0`, `calculateIRR` with the default guess on `-100` at `t0` and
`+110` one Julian year (31557600000 ms) later, given in either order, returns a rate within
`1e-6` of `0.10`. -/
theorem calculateIRR_one_year_ten_percent (t0 : Int) :
    ∃ r : ℝ,
      calculateIRR Real.rpow (some [⟨t0, -100⟩, ⟨t0 + 31557600000, 110⟩]) defaultGuess = some r ∧
      calculateIRR Real.rpow (some [⟨t0 + 31557600000, 110⟩, ⟨t0, -100⟩]) defaultGuess = some r ∧
      |r - 0.10| < 1e-6 :=
  ⟨defaultGuess, calculateIRR_oneYear t0, calculateIRR_oneYear_reversed t0,
    by norm_num [defaultGuess]⟩

/-- C3 (code defect): on two deposits of `100` one Julian year apart, both strictly positive,
`calculateIRR` with the default guess does not return `null`: it returns the number
`10 - 10.99 / 2 ^ 24`, the last midpoint of the bisection. -/
theorem calculateIRR_same_sign_returns_number :
    calculateIRR Real.rpow (some [⟨0, 100⟩, ⟨31557600000, 100⟩]) defaultGuess ≠ none ∧
      calculateIRR Real.rpow (some [⟨0, 100⟩, ⟨31557600000, 100⟩]) defaultGuess =
        some (10 - 10.99 / 2 ^ 24) := by
  rw [calculateIRR_twoDeposits]
  exact ⟨by simp, rfl⟩

/-- C4 (counterexample): with the default guess, `calculateIRR` returns a number above `10`, so
outside `[-0.99, 10]`. -/
theorem calculateIRR_result_above_ten :
    ∃ r : ℝ,
      calculateIRR Real.rpow
          (some [⟨0, -1054550⟩, ⟨31557600000, 12200000⟩, ⟨63115200000, -6599449⟩])
          defaultGuess = some r ∧
        ¬ (-0.99 ≤ r ∧ r ≤ 10) :=
  ⟨_, calculateIRR_threeYears, by norm_num⟩

/-- C4 (as amended): a number `r` returned by `calculateIRR` satisfies
`min guess (-0.99) - 1e-7 < r < max guess 10 + 0.99 + 1e-7`; with a guess in `[-0.99, 10]`
(the default included) that is `-0.99 - 1e-7 < r < 10.99 + 1e-7`. -/
theorem calculateIRR_result_range (pow : α → α → α) (cashFlows : Option (List (CashFlow α)))
    (guess r : α) (h : calculateIRR pow cashFlows guess = some r) :
    min guess (-0.99) - 1e-7 < r ∧ r < max guess 10 + 0.99 + 1e-7 := by
  cases cashFlows with
  | none => simp [calculateIRR] at h
  | some l =>
    by_cases hl : l.length < 2
    · simp [calculateIRR, hl] at h
    · rw [calculateIRR_eq_newtonLoop pow l guess (by omega)] at h
      have := newtonLoop_range pow (timeAdjusted l) (min guess (-0.99)) (max guess 10 + 1) r
        (min_le_right _ _)
        (by linarith [le_max_right guess 10, show (10.01 : α) ≤ 10 + 1 by norm_num])
        100 guess (min_le_left _ _)
        (by push_cast; linarith [le_max_left guess 10, show (0.01 : α) * 100 = 1 by norm_num])
        (by push_cast; linarith [le_max_right guess 10, show (0.01 : α) * 100 = 1 by norm_num]) h
      refine ⟨this.1, lt_of_lt_of_eq this.2 ?_⟩
      norm_num
      ring

/-- The statement of C4 as amended, at `-100` now and `110` in one Julian year. -/
theorem calculateIRR_result_range_witness :
    calculateIRR Real.rpow (some [⟨0, -100⟩, ⟨31557600000, 110⟩]) defaultGuess =
        some defaultGuess ∧
      min (defaultGuess : ℝ) (-0.99) - 1e-7 < defaultGuess ∧
      (defaultGuess : ℝ) < max defaultGuess 10 + 0.99 + 1e-7 :=
  ⟨calculateIRR_oneYear_zero,
    calculateIRR_result_range Real.rpow _ defaultGuess defaultGuess calculateIRR_oneYear_zero⟩

/-- C5 (counterexample): with the default guess `calculateIRR` returns, from its Newton-Raphson
loop, a rate at which the NPV is not below `1e-6` in absolute value and which has no root of the
NPV within `1e-6`. -/
theorem calculateIRR_result_not_a_root :
    ∃ r : ℝ,
      calculateIRR Real.rpow
          (some [⟨0, 1099999890000004⟩, ⟨31557600000, -2419999879000000⟩,
            ⟨63115200000, 1331000000000000⟩])
          defaultGuess = some r ∧
        ¬ (|npv Real.rpow
                (timeAdjusted
                  [⟨0, 1099999890000004⟩, ⟨31557600000, -2419999879000000⟩,
                    ⟨63115200000, 1331000000000000⟩]) r| < 1e-6 ∨
            ∃ root : ℝ,
              npv Real.rpow
                  (timeAdjusted
                    [⟨0, 1099999890000004⟩, ⟨31557600000, -2419999879000000⟩,
                      ⟨63115200000, 1331000000000000⟩]) root = 0 ∧
                |r - root| < 1e-6) := by
  refine ⟨_, calculateIRR_noRoot, ?_⟩
  rw [timeAdjusted_threeYears]
  rintro (h | ⟨root, hroot, hclose⟩)
  · have := npv_noRoot (0.1 + 4e-8) (by norm_num)
    rw [abs_of_pos (by linarith [show (0 : ℝ) < 1.25 by norm_num])] at h
    have h' : (1e-6 : ℝ) < 1.25 := by norm_num
    linarith
  · have hr : -1 < root := by
      have := (abs_lt.mp hclose).2
      norm_num at this
      linarith
    have := npv_noRoot root hr
    rw [hroot] at this
    norm_num at this

/-- C5 (as amended): a number `r` returned by `calculateIRR` is either the Newton step
`rate - NPV(rate) / derivative(rate)` from a rate visited by the Newton-Raphson loop at which
`|derivative| ≥ 1e-10`, `|r - rate| < 1e-7` and `|NPV(rate)| < 1e-7 * |derivative|`; or it is the
number returned by `bisectionIRR`, and then, if the NPV changes sign between `-0.99` and `10`,
`|NPV(r)| < 1e-6` or a root of the NPV lies within `1e-6` of `r`. -/
theorem calculateIRR_result_guarantee (cashFlows : List (CashFlow ℝ)) (guess r : ℝ)
    (h : calculateIRR Real.rpow (some cashFlows) guess = some r) :
    (∃ v ∈ (calculateIRRVisits Real.rpow (some cashFlows) guess).1,
        1e-10 ≤ |(newtonSums Real.rpow (timeAdjusted cashFlows) v.1).2| ∧
          r = v.1 - npv Real.rpow (timeAdjusted cashFlows) v.1 /
            (newtonSums Real.rpow (timeAdjusted cashFlows) v.1).2 ∧
          |r - v.1| < 1e-7 ∧
          |npv Real.rpow (timeAdjusted cashFlows) v.1| <
            1e-7 * |(newtonSums Real.rpow (timeAdjusted cashFlows) v.1).2|) ∨
      (bisectionIRR Real.rpow (timeAdjusted cashFlows) = some r ∧
        (npv Real.rpow (timeAdjusted cashFlows) (-0.99) *
            npv Real.rpow (timeAdjusted cashFlows) 10 < 0 →
          |npv Real.rpow (timeAdjusted cashFlows) r| < 1e-6 ∨
            ∃ root, npv Real.rpow (timeAdjusted cashFlows) root = 0 ∧ |r - root| < 1e-6)) := by
  have hlen : 2 ≤ cashFlows.length := by
    by_contra hl
    simp [calculateIRR, Nat.lt_of_not_le hl] at h
  rw [calculateIRR_eq_newtonLoop _ _ _ hlen] at h
  rw [calculateIRRVisits_eq _ _ _ hlen]
  rcases newtonLoop_result Real.rpow (timeAdjusted cashFlows) r 100 guess false h with
    ⟨v, hv, hc⟩ | ⟨_, hb⟩
  · exact Or.inl ⟨v, hv, newtonStep_converged Real.rpow _ v.1 r hc⟩
  · refine Or.inr ⟨hb, fun hsign => ?_⟩
    rcases (bisectionLoop_bracket (timeAdjusted cashFlows) 100 (-0.99) 10 (by norm_num)
      (by norm_num) hsign).2 r hb with hn | ⟨root, _, _, h0, hclose⟩
    · exact Or.inl hn
    · exact Or.inr ⟨root, h0, by rw [abs_sub_comm]; exact hclose⟩

/-- The statement of C5 as amended, at `-100` now and `110` in one Julian year. -/
theorem calculateIRR_result_guarantee_witness :
    calculateIRR Real.rpow (some [⟨0, -100⟩, ⟨31557600000, 110⟩]) defaultGuess =
        some defaultGuess ∧
      ((∃ v ∈ (calculateIRRVisits Real.rpow (some [⟨0, -100⟩, ⟨31557600000, 110⟩])
            defaultGuess).1,
          1e-10 ≤ |(newtonSums Real.rpow
              (timeAdjusted [⟨0, -100⟩, ⟨31557600000, 110⟩]) v.1).2| ∧
            defaultGuess = v.1 -
              npv Real.rpow (timeAdjusted [⟨0, -100⟩, ⟨31557600000, 110⟩]) v.1 /
                (newtonSums Real.rpow
                  (timeAdjusted [⟨0, -100⟩, ⟨31557600000, 110⟩]) v.1).2 ∧
            |defaultGuess - v.1| < 1e-7 ∧
            |npv Real.rpow (timeAdjusted [⟨0, -100⟩, ⟨31557600000, 110⟩]) v.1| <
              1e-7 * |(newtonSums Real.rpow
                (timeAdjusted [⟨0, -100⟩, ⟨31557600000, 110⟩]) v.1).2|) ∨
        (bisectionIRR Real.rpow (timeAdjusted [⟨0, -100⟩, ⟨31557600000, 110⟩]) =
            some defaultGuess ∧
          (npv Real.rpow (timeAdjusted [⟨0, -100⟩, ⟨31557600000, 110⟩]) (-0.99) *
              npv Real.rpow (timeAdjusted [⟨0, -100⟩, ⟨31557600000, 110⟩]) 10 < 0 →
            |npv Real.rpow (timeAdjusted [⟨0, -100⟩, ⟨31557600000, 110⟩]) defaultGuess| <
                1e-6 ∨
              ∃ root,
                npv Real.rpow (timeAdjusted [⟨0, -100⟩, ⟨31557600000, 110⟩]) root = 0 ∧
                  |defaultGuess - root| < 1e-6))) :=
  ⟨calculateIRR_oneYear_zero,
    calculateIRR_result_guarantee _ defaultGuess defaultGuess calculateIRR_oneYear_zero⟩

/-- C6: `calculateIRR` returns the same result, the same number or `null` in both cases, on a
collection and on every permutation of it, for every initial guess and every power function,
also when several flows share a timestamp. -/
theorem calculateIRR_perm (pow : α → α → α) (l₁ l₂ : List (CashFlow α)) (guess : α)
    (h : l₁.Perm l₂) :
    calculateIRR pow (some l₁) guess = calculateIRR pow (some l₂) guess := by
  by_cases hl : l₁.length < 2
  · have hl' : l₂.length < 2 := by rw [← h.length_eq]; exact hl
    simp [calculateIRR, hl, hl']
  · rw [calculateIRR_eq_newtonLoop pow l₁ guess (by omega),
      calculateIRR_eq_newtonLoop pow l₂ guess (by rw [← h.length_eq]; omega)]
    exact newtonLoop_perm pow _ _ (timeAdjusted_perm l₁ l₂ h) 100 guess

/-- The statement of C6 at two flows that share a timestamp and a third one a year later. -/
theorem calculateIRR_perm_witness :
    ([⟨0, -50⟩, ⟨0, -100⟩, ⟨31557600000, 165⟩] : List (CashFlow ℝ)).Perm
        [⟨0, -100⟩, ⟨0, -50⟩, ⟨31557600000, 165⟩] ∧
      calculateIRR Real.rpow (some [⟨0, -50⟩, ⟨0, -100⟩, ⟨31557600000, 165⟩]) defaultGuess =
        calculateIRR Real.rpow (some [⟨0, -100⟩, ⟨0, -50⟩, ⟨31557600000, 165⟩]) defaultGuess :=
  ⟨List.Perm.swap _ _ _, calculateIRR_perm Real.rpow _ _ defaultGuess (List.Perm.swap _ _ _)⟩

/-- C7 (counterexample): on the scenario `-1000` on 2023-01-01, `-500` on 2023-07-01 and `+1650`
on 2024-01-01, `calculateIRR` with the default guess does not return a number in
`[0.09, 0.10]`. -/
theorem calculateIRR_scenario_not_nine_to_ten :
    ¬ ∃ r : ℝ,
      calculateIRR Real.rpow
          (some [⟨1672531200000, -1000⟩, ⟨1688169600000, -500⟩, ⟨1704067200000, 1650⟩])
          defaultGuess = some r ∧
        0.09 ≤ r ∧ r ≤ 0.10 := by
  rintro ⟨r, hr, _, h10⟩
  obtain ⟨r', hr', hlo, _⟩ := calculateIRR_scenario
  rw [hr] at hr'
  simp only [Option.some.injEq] at hr'
  subst hr'
  norm_num at hlo h10
  linarith

/-- C7 (as amended): on the scenario `-1000` on 2023-01-01, `-500` on 2023-07-01 (181 days
later) and `+1650` on 2024-01-01 (365 days after the first), with years computed as
days / 365.25, `calculateIRR` with the default guess returns a number `r` with
`0.12 ≤ r ≤ 0.121`. -/
theorem calculateIRR_scenario_about_twelve_percent :
    ∃ r : ℝ,
      calculateIRR Real.rpow
          (some [⟨1672531200000, -1000⟩, ⟨1688169600000, -500⟩, ⟨1704067200000, 1650⟩])
          defaultGuess = some r ∧
        0.12 ≤ r ∧ r ≤ 0.121 := by
  obtain ⟨r, hr, hlo, hhi⟩ := calculateIRR_scenario
  refine ⟨r, hr, ?_, ?_⟩
  · norm_num at hlo ⊢
    linarith
  · norm_num at hhi ⊢
    linarith

/-- C8: in every iteration of the Newton-Raphson loop of `calculateIRR`, at whatever rate, either
`|derivative| < 1e-10` and the rate is increased by exactly `0.01` with no Newton step, or
`|derivative| ≥ 1e-10`, so the divisor is not zero, and the step `rate - npv / derivative` is
returned or bounded and carried on.  When all flows share one timestamp the first case holds in
every iteration. -/
theorem newtonStep_guards_division (pow : α → α → α) (cashFlows : List (CashFlow α)) (rate : α)
    (t : Int) (amounts : List α) :
    ((|(newtonSums pow (timeAdjusted cashFlows) rate).2| < 1e-10 ∧
          newtonStep pow (timeAdjusted cashFlows) rate = .perturbed (rate + 0.01)) ∨
        (1e-10 ≤ |(newtonSums pow (timeAdjusted cashFlows) rate).2| ∧
          (newtonSums pow (timeAdjusted cashFlows) rate).2 ≠ 0 ∧
          (newtonStep pow (timeAdjusted cashFlows) rate =
              .converged
                (rate - (newtonSums pow (timeAdjusted cashFlows) rate).1 /
                  (newtonSums pow (timeAdjusted cashFlows) rate).2) ∨
            newtonStep pow (timeAdjusted cashFlows) rate =
              .stepped
                (boundRate
                  (rate - (newtonSums pow (timeAdjusted cashFlows) rate).1 /
                    (newtonSums pow (timeAdjusted cashFlows) rate).2))))) ∧
      (newtonSums pow (timeAdjusted (amounts.map fun a => (⟨t, a⟩ : CashFlow α))) rate).2 = 0 ∧
      newtonStep pow (timeAdjusted (amounts.map fun a => (⟨t, a⟩ : CashFlow α))) rate =
        .perturbed (rate + 0.01) := by
  have hz := newtonSums_snd_of_years_zero pow _ rate (timeAdjusted_years_of_same_date t amounts)
  refine ⟨?_, hz, newtonStep_eq_perturbed pow _ rate (by rw [hz]; norm_num)⟩
  rcases newtonStep_cases pow (timeAdjusted cashFlows) rate with h | h | h
  · exact Or.inl h
  · refine Or.inr ⟨h.1, ?_, Or.inl h.2.2⟩
    intro h0
    rw [h0] at h
    norm_num at h
  · refine Or.inr ⟨h.1, ?_, Or.inr h.2.2⟩
    intro h0
    rw [h0] at h
    norm_num at h

/-- C9: when the NPV changes sign between `-0.99` and `10`, `bisectionIRR` keeps the sign change
bracketed at the start of every iteration and returns a number `mid` in `[-0.99, 10]` with
`|NPV(mid)| < 1e-6` or with a root of the NPV, itself in `[-0.99, 10]`, within `1e-6` of `mid`.
The years of the flows need not be non-negative for this. -/
theorem bisectionIRR_bracketed (flows : List (Flow ℝ))
    (h : npv Real.rpow flows (-0.99) * npv Real.rpow flows 10 < 0) :
    (∀ b ∈ bisectionVisits Real.rpow flows 100 (-0.99) 10,
        npv Real.rpow flows b.1 * npv Real.rpow flows b.2 < 0) ∧
      ∃ mid, bisectionIRR Real.rpow flows = some mid ∧ -0.99 ≤ mid ∧ mid ≤ 10 ∧
        (|npv Real.rpow flows mid| < 1e-6 ∨
          ∃ root, -0.99 ≤ root ∧ root ≤ 10 ∧ npv Real.rpow flows root = 0 ∧
            |root - mid| < 1e-6) := by
  have hb := bisectionLoop_bracket flows 100 (-0.99) 10 (by norm_num) (by norm_num) h
  obtain ⟨mid, hmid⟩ := bisectionIRR_isSome Real.rpow flows
  have hmem := bisectionIRR_mem Real.rpow flows mid hmid
  exact ⟨hb.1, mid, hmid, hmem.1, hmem.2, hb.2 mid hmid⟩

/-- The statement of C9 at `-100` now and `110` in a year. -/
theorem bisectionIRR_bracketed_witness :
    npv Real.rpow [{ years := 0, amount := -100 }, { years := 1, amount := 110 }] (-0.99) *
        npv Real.rpow [{ years := 0, amount := -100 }, { years := 1, amount := 110 }] 10 < 0 ∧
      ((∀ b ∈ bisectionVisits Real.rpow
            [{ years := 0, amount := -100 }, { years := 1, amount := 110 }] 100 (-0.99) 10,
          npv Real.rpow [{ years := 0, amount := -100 }, { years := 1, amount := 110 }] b.1 *
            npv Real.rpow [{ years := 0, amount := -100 }, { years := 1, amount := 110 }] b.2 <
              0) ∧
        ∃ mid,
          bisectionIRR Real.rpow [{ years := 0, amount := -100 }, { years := 1, amount := 110 }] =
              some mid ∧
            -0.99 ≤ mid ∧ mid ≤ 10 ∧
            (|npv Real.rpow [{ years := 0, amount := -100 }, { years := 1, amount := 110 }] mid| <
                1e-6 ∨
              ∃ root, -0.99 ≤ root ∧ root ≤ 10 ∧
                npv Real.rpow [{ years := 0, amount := -100 }, { years := 1, amount := 110 }]
                    root = 0 ∧
                  |root - mid| < 1e-6)) :=
  ⟨npv_oneYear_sign_change, bisectionIRR_bracketed _ npv_oneYear_sign_change⟩

/-- C10: with an initial guess above `-1`, every rate at which the Newton-Raphson loop of
`calculateIRR` runs its body is above `-1`, and at or above `-0.99` once a Newton step has been
taken; every `low` and midpoint at which `bisectionIRR` evaluates the NPV, whether called from
`calculateIRR` or on any list of flows, is above `-1`. -/
theorem calculateIRR_rates_above_minus_one (pow : α → α → α)
    (cashFlows : Option (List (CashFlow α))) (flows : List (Flow α)) (guess : α)
    (h : -1 < guess) :
    (∀ v ∈ (calculateIRRVisits pow cashFlows guess).1, -1 < v.1 ∧ (v.2 = true → -0.99 ≤ v.1)) ∧
      (∀ b ∈ (calculateIRRVisits pow cashFlows guess).2,
        -1 < b.1 ∧ -1 < (b.1 + b.2) / 2 ∧ -0.99 ≤ b.1 ∧ b.2 ≤ 10) ∧
      (∀ b ∈ bisectionVisits pow flows 100 (-0.99) 10,
        -1 < b.1 ∧ -1 < (b.1 + b.2) / 2 ∧ -0.99 ≤ b.1 ∧ b.2 ≤ 10) := by
  have hbis : ∀ fl : List (Flow α), ∀ b ∈ bisectionVisits pow fl 100 (-0.99) 10,
      -1 < b.1 ∧ -1 < (b.1 + b.2) / 2 ∧ -0.99 ≤ b.1 ∧ b.2 ≤ 10 := by
    intro fl b hb
    have := bisectionVisits_mem pow fl (-0.99) 10 100 (-0.99) 10 le_rfl (by norm_num) le_rfl b hb
    have h99 : (-1 : α) < -0.99 := by norm_num
    exact ⟨by linarith [this.1], by linarith [this.1, this.2.1], this.1, this.2.2⟩
  refine ⟨?_, ?_, hbis flows⟩
  · intro v hv
    cases cashFlows with
    | none => simp [calculateIRRVisits] at hv
    | some l =>
      unfold calculateIRRVisits at hv
      dsimp only at hv
      split_ifs at hv with hl
      · simp at hv
      · cases hs : sortByDate l with
        | nil => rw [hs] at hv; simp at hv
        | cons first rest =>
          rw [hs] at hv
          exact newtonVisits_above pow _ 100 guess false h (by simp) v hv
  · intro b hb
    cases cashFlows with
    | none => simp [calculateIRRVisits] at hb
    | some l =>
      unfold calculateIRRVisits at hb
      dsimp only at hb
      split_ifs at hb with hl
      · simp at hb
      · cases hs : sortByDate l with
        | nil => rw [hs] at hb; simp at hb
        | cons first rest =>
          rw [hs] at hb
          dsimp only at hb
          split_ifs at hb with hf
          · exact hbis _ b hb
          · simp at hb

/-- The statement of C10 at `-100` now and `110` after one Julian year, with the default guess. -/
theorem calculateIRR_rates_above_minus_one_witness :
    (-1 : ℝ) < defaultGuess ∧
      ((∀ v ∈ (calculateIRRVisits Real.rpow (some [⟨0, -100⟩, ⟨31557600000, 110⟩])
            defaultGuess).1, -1 < v.1 ∧ (v.2 = true → -0.99 ≤ v.1)) ∧
        (∀ b ∈ (calculateIRRVisits Real.rpow (some [⟨0, -100⟩, ⟨31557600000, 110⟩])
            defaultGuess).2, -1 < b.1 ∧ -1 < (b.1 + b.2) / 2 ∧ -0.99 ≤ b.1 ∧ b.2 ≤ 10) ∧
        (∀ b ∈ bisectionVisits Real.rpow
            [{ years := 0, amount := -100 }, { years := 1, amount := 110 }] 100 (-0.99) 10,
          -1 < b.1 ∧ -1 < (b.1 + b.2) / 2 ∧ -0.99 ≤ b.1 ∧ b.2 ≤ 10)) :=
  ⟨by norm_num [defaultGuess],
    calculateIRR_rates_above_minus_one Real.rpow (some [⟨0, -100⟩, ⟨31557600000, 110⟩])
      [{ years := 0, amount := -100 }, { years := 1, amount := 110 }] defaultGuess
      (by norm_num [defaultGuess])⟩

/-- C11: on every list of flows `bisectionIRR` returns a number and runs its body at most 24
times: the pair visited at iteration index `i` is `10.99 / 2 ^ i` wide, and the half-width
`10.99 / 2 ^ (i + 1)` is still at least `1e-6` at index 22 and below `1e-6` at index 23, so
`return null` is not reached.  Consequently `calculateIRR` returns `null` if and only if the
collection is absent or has fewer than 2 flows, and it runs at most 100 Newton-Raphson and 24
bisection iterations. -/
theorem bisectionIRR_returns_within_24 (pow : α → α → α) (flows : List (Flow α))
    (cashFlows : Option (List (CashFlow α))) (guess : α) :
    (∃ mid, bisectionIRR pow flows = some mid) ∧
      (bisectionVisits pow flows 100 (-0.99) 10).length ≤ 24 ∧
      (∀ (i : Nat) (b : α × α), (bisectionVisits pow flows 100 (-0.99) 10)[i]? = some b →
        (b.2 - b.1) / 2 = 10.99 / 2 ^ (i + 1)) ∧
      (1e-6 : α) ≤ 10.99 / 2 ^ (22 + 1) ∧ (10.99 : α) / 2 ^ (23 + 1) < 1e-6 ∧
      (calculateIRR pow cashFlows guess = none ↔
        cashFlows = none ∨ ∃ l, cashFlows = some l ∧ l.length < 2) ∧
      (calculateIRRVisits pow cashFlows guess).1.length ≤ 100 ∧
      (calculateIRRVisits pow cashFlows guess).2.length ≤ 24 := by
  refine ⟨bisectionIRR_isSome pow flows,
    bisectionVisits_length_le pow flows 23 100 (-0.99) 10 (by norm_num), ?_, by norm_num,
    by norm_num, calculateIRR_eq_none_iff pow cashFlows guess,
    calculateIRRVisits_length_le pow cashFlows guess⟩
  intro i b h
  rw [bisectionVisits_width pow flows 100 (-0.99) 10 i b h, pow_succ]
  norm_num
  field_simp
  ring

end Properties

end Portfolio
